import Mathlib

/-!
# CHIP-8 virtual CPU (`chip8.h`, `chip8.cpp`)

A shallow embedding of the class `Chip8`.

* Fixed-width unsigned members (`uint8_t`, `uint16_t`) are natural numbers; every store of an
  `int` expression into such a member is written with an explicit `% 256` / `% 65536`.
* `int` members (`display`, `keypad`) are integers.
* C++ arrays are functions from the index; an access outside the declared extent has no defined
  behaviour in C++, so every operation that can index out of range returns `Option`, with
  `none` standing for "behaviour undefined".
* `rand()` is an input of `single_cycle`: the argument `r` is the value the call returns.
* Writing to `std::cerr` has no effect on the machine state and is omitted.
-/

/-! ## Machine model -/

/-- Array store `a[i] = v`. -/
def upd {α : Type} (a : Nat → α) (i : Nat) (v : α) : Nat → α :=
  fun j => if j = i then v else a j

/-- Conversion of an `int` value to `uint8_t`. -/
def to_uint8 (z : Int) : Nat := (z % 256).toNat

/-- Conversion of a `uint8_t` value to `int8_t` (two's complement). -/
def to_int8 (n : Nat) : Int :=
  if n % 256 < 128 then ((n % 256 : Nat) : Int) else ((n % 256 : Nat) : Int) - 256

/-- Bounds-checked read of `memory[a]` (`uint8_t memory[4096]`). -/
def mem_read (m : Nat → Nat) (a : Nat) : Option Nat :=
  if a < 4096 then some (m a) else none

/-- Bounds-checked store `memory[a] = v`. -/
def mem_write (m : Nat → Nat) (a v : Nat) : Option (Nat → Nat) :=
  if a < 4096 then some (upd m a v) else none

/-- The local array `chip8_fontset[80]` of the constructor. -/
def chip8_fontset : List Nat :=
  [0xF0, 0x90, 0x90, 0x90, 0xF0,
   0x20, 0x60, 0x20, 0x20, 0x70,
   0xF0, 0x10, 0xF0, 0x80, 0xF0,
   0xF0, 0x10, 0xF0, 0x10, 0xF0,
   0x90, 0x90, 0xF0, 0x10, 0x10,
   0xF0, 0x80, 0xF0, 0x10, 0xF0,
   0xF0, 0x80, 0xF0, 0x90, 0xF0,
   0xF0, 0x10, 0x20, 0x40, 0x40,
   0xF0, 0x90, 0xF0, 0x90, 0xF0,
   0xF0, 0x90, 0xF0, 0x10, 0xF0,
   0xF0, 0x90, 0xF0, 0x90, 0x90,
   0xE0, 0x90, 0xE0, 0x90, 0xE0,
   0xF0, 0x80, 0x80, 0x80, 0xF0,
   0xE0, 0x90, 0x90, 0x90, 0xE0,
   0xF0, 0x80, 0xF0, 0x80, 0xF0,
   0xF0, 0x80, 0xF0, 0x80, 0x80]

/-- The data members of `class Chip8`. -/
structure Chip8 where
  /-- `uint8_t V[16]` -/
  V : Nat → Nat
  /-- `uint16_t I` -/
  I : Nat
  /-- `uint16_t pc` -/
  pc : Nat
  /-- `uint8_t sp` -/
  sp : Nat
  /-- `uint16_t stack[16]` -/
  stack : Nat → Nat
  /-- `uint8_t delay_timer` -/
  delay_timer : Nat
  /-- `uint8_t sound_timer` -/
  sound_timer : Nat
  /-- `uint8_t memory[4096]` -/
  memory : Nat → Nat
  /-- `int display[64 * 32]` -/
  display : Nat → Int
  /-- `int keypad[16]` -/
  keypad : Nat → Int
  /-- `bool draw_flag` -/
  draw_flag : Bool

namespace Chip8

/-- The constructor `Chip8::Chip8()`: member initialisers, the five `memset`s, then the font
copied into `memory[0..79]`. -/
def construct : Chip8 where
  V := fun _ => 0
  I := 0
  pc := 0x0200
  sp := 0
  stack := fun _ => 0
  delay_timer := 0
  sound_timer := 0
  memory := fun i => if i < 80 then chip8_fontset.getD i 0 else 0
  display := fun _ => 0
  keypad := fun _ => 0
  draw_flag := false

/-- The read loop of `load_rom`: `for (int i = 0x0200; f.get(c); ++i) memory[i] = (uint8_t)c;`
over the bytes still to be read, `i` being the current index. -/
def load_loop : List Nat → Nat → (Nat → Nat) → Option (Nat → Nat)
  | [], _, m => some m
  | c :: rest, i, m => (mem_write m i (c % 256)).bind (load_loop rest (i + 1))

/-- `Chip8::load_rom`. The file is `none` when it cannot be opened and otherwise its bytes.
The result is the returned `bool` and the machine afterwards. -/
def load_rom (file : Option (List Nat)) (s : Chip8) : Option (Bool × Chip8) :=
  match file with
  | none => some (false, s)
  | some bytes => (load_loop bytes 0x0200 s.memory).map (fun m => (true, { s with memory := m }))

/-- `Chip8::get_draw_flag`. -/
def get_draw_flag (s : Chip8) : Bool := s.draw_flag

/-- `Chip8::set_draw_flag`. -/
def set_draw_flag (s : Chip8) (flag : Bool) : Chip8 := { s with draw_flag := flag }

/-- `Chip8::get_display_value`. -/
def get_display_value (s : Chip8) (i : Nat) : Option Int :=
  if i < 2048 then some (s.display i) else none

/-- `Chip8::set_keypad_value`. -/
def set_keypad_value (s : Chip8) (index : Nat) (val : Int) : Option Chip8 :=
  if index < 16 then some { s with keypad := upd s.keypad index val } else none

/-- `Chip8::get_nibble`: `(opcode & bitmask) >> shift`. -/
def get_nibble (opcode shift bitmask : Nat) : Nat := (opcode &&& bitmask) >>> shift

/-- The fetch `int opcode = (memory[pc] << 8) | (memory[pc + 1]);`. -/
def fetch (s : Chip8) : Option Nat :=
  (mem_read s.memory s.pc).bind fun hi =>
  (mem_read s.memory (s.pc + 1)).bind fun lo =>
  some ((hi <<< 8) ||| lo)

/-- `pc += 2;` -/
def pc_next (s : Chip8) : Chip8 := { s with pc := (s.pc + 2) % 65536 }

/-- The inner loop of DXYN for row `i` with sprite byte `pixel`: the pair (`V`, `display`) after
the first `j` iterations of `for (int j = 0; j < width; j++)`. -/
def draw_cols (pixel x y i : Nat) :
    Nat → (Nat → Nat) × (Nat → Int) → (Nat → Nat) × (Nat → Int)
  | 0, st => st
  | j + 1, st =>
    let st1 := draw_cols pixel x y i j st
    if pixel &&& (0x80 >>> j) ≠ 0 then
      let index := ((x + j) + ((y + i) * 64)) % 2048
      (if st1.2 index = 1 then upd st1.1 0xF 1 else st1.1,
       upd st1.2 index (Int.xor (st1.2 index) 1))
    else st1

/-- The outer loop of DXYN: the pair (`V`, `display`) after the first `i` iterations of
`for (int i = 0; i < height; i++)`, where `width = 8`. -/
def draw_rows (mem : Nat → Nat) (I x y : Nat) :
    Nat → (Nat → Nat) × (Nat → Int) → Option ((Nat → Nat) × (Nat → Int))
  | 0, st => some st
  | i + 1, st =>
    (draw_rows mem I x y i st).bind fun st1 =>
    (mem_read mem (I + i)).bind fun pixel =>
    some (draw_cols pixel x y i 8 st1)

/-- The loop of FX0A: the pair (`key_pressed`, `V`) after the first `i` iterations of
`for (int i = 0; i < 16; i++)`. -/
def key_scan (keypad : Nat → Int) (reg : Nat) : Nat → Bool × (Nat → Nat) → Bool × (Nat → Nat)
  | 0, st => st
  | i + 1, st =>
    let st1 := key_scan keypad reg i st
    if keypad i ≠ 0 then (true, upd st1.2 reg (i % 256)) else st1

/-- The loop of FX55: `memory` after the first `i` iterations of
`for (int i = 0; i <= reg; i++) memory[I + i] = V[i];`. -/
def reg_dump (V : Nat → Nat) (I : Nat) : Nat → (Nat → Nat) → Option (Nat → Nat)
  | 0, m => some m
  | i + 1, m => (reg_dump V I i m).bind fun m1 => mem_write m1 (I + i) (V i)

/-- The loop of FX65: `V` after the first `i` iterations of
`for (int i = 0; i <= reg; i++) V[i] = memory[I + i];`. -/
def reg_load (mem : Nat → Nat) (I : Nat) : Nat → (Nat → Nat) → Option (Nat → Nat)
  | 0, V => some V
  | i + 1, V =>
    (reg_load mem I i V).bind fun V1 =>
    (mem_read mem (I + i)).bind fun b => some (upd V1 i b)

/-- The `case 0:` family (00E0, 00EE). -/
def case_0 (opcode : Nat) (s : Chip8) : Option Chip8 :=
  if opcode = 0x00E0 then
    some (pc_next { s with display := fun _ => 0, draw_flag := true })
  else if opcode = 0x00EE then
    let sp := to_uint8 ((s.sp : Int) - 1)
    if sp < 16 then some (pc_next { s with sp := sp, pc := s.stack sp }) else none
  else some s

/-- The `case 8:` family (register/ALU instructions). -/
def case_8 (opcode : Nat) (s : Chip8) : Option Chip8 :=
  let val := get_nibble opcode 0 0x000F
  let reg1 := get_nibble opcode 8 0x0F00
  let reg2 := get_nibble opcode 4 0x00F0
  let reg := get_nibble opcode 8 0x0F00
  if val = 0 then
    some (pc_next { s with V := upd s.V reg1 (s.V reg2) })
  else if val = 1 then
    let V1 := upd s.V reg1 (s.V reg1 ||| s.V reg2)
    some (pc_next { s with V := upd V1 0xF 0 })
  else if val = 2 then
    let V1 := upd s.V reg1 (s.V reg1 &&& s.V reg2)
    some (pc_next { s with V := upd V1 0xF 0 })
  else if val = 3 then
    let V1 := upd s.V reg1 (s.V reg1 ^^^ s.V reg2)
    some (pc_next { s with V := upd V1 0xF 0 })
  else if val = 4 then
    let V1 := upd s.V 0xF (if s.V reg1 + s.V reg2 > 0xFF then 1 else 0)
    let V2 := upd V1 reg1 ((V1 reg1 + V1 reg2) % 256)
    let V3 := upd V2 reg1 (to_uint8 (to_int8 (V2 reg1)))
    some (pc_next { s with V := V3 })
  else if val = 5 then
    let V1 := upd s.V 0xF (if s.V reg1 < s.V reg2 then 0 else 1)
    let V2 := upd V1 reg1 (to_uint8 ((V1 reg1 : Int) - (V1 reg2 : Int)))
    some (pc_next { s with V := V2 })
  else if val = 6 then
    let V1 := upd s.V 0xF (s.V reg &&& 0x1)
    let V2 := upd V1 reg ((V1 reg >>> 1) % 256)
    let V3 := upd V2 reg (V2 reg % 256)
    some (pc_next { s with V := V3 })
  else if val = 7 then
    let V1 := upd s.V 0xF (if s.V reg1 > s.V reg2 then 0 else 1)
    let V2 := upd V1 reg1 (to_uint8 ((V1 reg2 : Int) - (V1 reg1 : Int)))
    some (pc_next { s with V := V2 })
  else if val = 0xE then
    let V1 := upd s.V 0xF ((s.V reg >>> 7) % 256)
    let V2 := upd V1 0xF (V1 0xF % 256)
    let V3 := upd V2 reg ((V2 reg <<< 1) % 256)
    let V4 := upd V3 reg (V3 reg % 256)
    some (pc_next { s with V := V4 })
  else some s

/-- The `case 13:` instruction DXYN. -/
def case_13 (opcode : Nat) (s : Chip8) : Option Chip8 :=
  let reg1 := get_nibble opcode 8 0x0F00
  let reg2 := get_nibble opcode 4 0x00F0
  let height := opcode &&& 0x000F
  let V1 := upd s.V 0xF 0
  let x := V1 reg1
  let y := V1 reg2
  (draw_rows s.memory s.I x y height (V1, s.display)).map fun st =>
    pc_next { s with V := st.1, display := st.2, draw_flag := true }

/-- The `case 14:` family (EX9E, EXA1). -/
def case_14 (opcode : Nat) (s : Chip8) : Option Chip8 :=
  let val := get_nibble opcode 0 0x00FF
  let reg := get_nibble opcode 8 0x0F00
  if val = 0x9E then
    if s.V reg < 16 then
      some (if s.keypad (s.V reg) ≠ 0 then pc_next (pc_next s) else pc_next s)
    else none
  else if val = 0xA1 then
    if s.V reg < 16 then
      some (if s.keypad (s.V reg) = 0 then pc_next (pc_next s) else pc_next s)
    else none
  else some s

/-- The `case 15:` family (timer, keypad wait, index and memory instructions). -/
def case_15 (opcode : Nat) (s : Chip8) : Option Chip8 :=
  let val := get_nibble opcode 0 0x00FF
  let reg := get_nibble opcode 8 0x0F00
  if val = 0x07 then
    some (pc_next { s with V := upd s.V reg s.delay_timer })
  else if val = 0x0A then
    let st := key_scan s.keypad reg 16 (false, s.V)
    some (if st.1 then pc_next { s with V := st.2 } else { s with V := st.2 })
  else if val = 0x15 then
    some (pc_next { s with delay_timer := s.V reg })
  else if val = 0x18 then
    some (pc_next s)
  else if val = 0x1E then
    let V1 := upd s.V 0xF (if s.I + s.V reg > 0xFFF then 1 else 0)
    some (pc_next { s with V := V1, I := (s.I + V1 reg) % 65536 })
  else if val = 0x29 then
    some (pc_next { s with I := (s.V reg * 0x5) % 65536 })
  else if val = 0x33 then
    (mem_write s.memory s.I ((s.V reg / 100) % 256)).bind fun m1 =>
    (mem_write m1 (s.I + 1) (((s.V reg / 10) % 10) % 256)).bind fun m2 =>
    (mem_write m2 (s.I + 2) ((s.V reg % 10) % 256)).bind fun m3 =>
    some (pc_next { s with memory := m3 })
  else if val = 0x55 then
    (reg_dump s.V s.I (reg + 1) s.memory).map fun m =>
      pc_next { s with memory := m, I := (s.I + reg + 1) % 65536 }
  else if val = 0x65 then
    (reg_load s.memory s.I (reg + 1) s.V).map fun V1 =>
      pc_next { s with V := V1, I := (s.I + reg + 1) % 65536 }
  else some s

/-- The `switch (opcode_msb_nibble)` of `single_cycle`; `r` is the value returned by `rand()`. -/
def execute (r : Nat) (opcode : Nat) (s : Chip8) : Option Chip8 :=
  let opcode_msb_nibble := get_nibble opcode 12 0xF000
  let val := get_nibble opcode 0 0x00FF
  let reg := get_nibble opcode 8 0x0F00
  let reg1 := get_nibble opcode 8 0x0F00
  let reg2 := get_nibble opcode 4 0x00F0
  if opcode_msb_nibble = 0 then case_0 opcode s
  else if opcode_msb_nibble = 1 then
    some { s with pc := (opcode &&& 0x0FFF) % 65536 }
  else if opcode_msb_nibble = 2 then
    if s.sp < 16 then
      some { s with stack := upd s.stack s.sp s.pc, sp := (s.sp + 1) % 256,
                    pc := (opcode &&& 0x0FFF) % 65536 }
    else none
  else if opcode_msb_nibble = 3 then
    some (if s.V reg = val then pc_next (pc_next s) else pc_next s)
  else if opcode_msb_nibble = 4 then
    some (if s.V reg ≠ val then pc_next (pc_next s) else pc_next s)
  else if opcode_msb_nibble = 5 then
    some (if s.V reg1 = s.V reg2 then pc_next (pc_next s) else pc_next s)
  else if opcode_msb_nibble = 6 then
    some (pc_next { s with V := upd s.V reg (val % 256) })
  else if opcode_msb_nibble = 7 then
    some (pc_next { s with V := upd s.V reg ((s.V reg + val) % 256) })
  else if opcode_msb_nibble = 8 then case_8 opcode s
  else if opcode_msb_nibble = 9 then
    some (if s.V reg1 ≠ s.V reg2 then pc_next (pc_next s) else pc_next s)
  else if opcode_msb_nibble = 10 then
    some (pc_next { s with I := (opcode &&& 0x0FFF) % 65536 })
  else if opcode_msb_nibble = 11 then
    some { s with pc := ((opcode &&& 0x0FFF) % 65536 + s.V 0) % 65536 }
  else if opcode_msb_nibble = 12 then
    let random_number := r % 256
    some (pc_next { s with V := upd s.V reg ((random_number &&& val) % 256) })
  else if opcode_msb_nibble = 13 then case_13 opcode s
  else if opcode_msb_nibble = 14 then case_14 opcode s
  else if opcode_msb_nibble = 15 then case_15 opcode s
  else some s

/-- The tail of `single_cycle`: `if (delay_timer > 0) delay_timer--;`. -/
def timer_tick (s : Chip8) : Chip8 :=
  if s.delay_timer > 0 then { s with delay_timer := to_uint8 ((s.delay_timer : Int) - 1) } else s

/-- `Chip8::single_cycle`: fetch, dispatch, timer decrement. -/
def single_cycle (r : Nat) (s : Chip8) : Option Chip8 :=
  (fetch s).bind fun opcode => (execute r opcode s).map timer_tick

/-! ## Definitions used in the statements: test machines, frames, loop invariants, runs -/

/-- A freshly constructed machine with the given registers and the instruction bytes `hi`, `lo`
at 0x200, where the program counter points. -/
def machine_with (V : Nat → Nat) (hi lo : Nat) : Chip8 :=
  { construct with V := V, memory := upd (upd construct.memory 0x200 hi) 0x201 lo }

/-- State changes allowed to a conditional skip: everything but `pc` and the delay timer is
preserved. -/
def skip_frame (s s' : Chip8) : Prop :=
  s'.V = s.V ∧ s'.I = s.I ∧ s'.stack = s.stack ∧ s'.sp = s.sp ∧ s'.memory = s.memory ∧
    s'.display = s.display ∧ s'.keypad = s.keypad

/-- The instruction word is decoded as the timer-set instruction FX15: `single_cycle` takes
`case 15:` and then `case 0x15:`. -/
def is_FX15 (opcode : Nat) : Prop :=
  get_nibble opcode 12 0xF000 = 15 ∧ get_nibble opcode 0 0x00FF = 0x15

instance (opcode : Nat) : Decidable (is_FX15 opcode) := by
  unfold is_FX15; infer_instance

/-- A run for the countdown: state 0 executes F015 at 0x200 with V[0] = 5; every later state
has PC = 0x202, where the unknown word 0000 is fetched, and the timer one lower each time. -/
def countdown_trace : Nat → Chip8
  | 0 => machine_with (upd construct.V 0 5) 0xF0 0x15
  | k + 1 =>
    { machine_with (upd construct.V 0 5) 0xF0 0x15 with pc := 0x202, delay_timer := 4 - k }

/-- Cell `c` is addressed by a set sprite bit among the first `N` (row, column) pairs of the
draw, pairs being counted row by row (`8 * i + j`). -/
def draw_hit (mem : Nat → Nat) (I x y N c : Nat) : Prop :=
  ∃ i j, j < 8 ∧ 8 * i + j < N ∧ mem (I + i) &&& (0x80 >>> j) ≠ 0 ∧
    ((x + j) + ((y + i) * 64)) % 2048 = c

/-- Some set sprite bit among the first `N` (row, column) pairs addresses a cell that held 1 in
the framebuffer `d0`. -/
def draw_coll (mem : Nat → Nat) (I x y : Nat) (d0 : Nat → Int) (N : Nat) : Prop :=
  ∃ i j, j < 8 ∧ 8 * i + j < N ∧ mem (I + i) &&& (0x80 >>> j) ≠ 0 ∧
    d0 (((x + j) + ((y + i) * 64)) % 2048) = 1

/-- Loop invariant of DXYN after `N` (row, column) pairs, relative to the registers `V0` and
framebuffer `d0` at loop entry. -/
def draw_inv (mem : Nat → Nat) (I x y : Nat) (V0 : Nat → Nat) (d0 : Nat → Int) (N : Nat)
    (st : (Nat → Nat) × (Nat → Int)) : Prop :=
  (∀ c, (draw_hit mem I x y N c → st.2 c = Int.xor (d0 c) 1) ∧
        (¬ draw_hit mem I x y N c → st.2 c = d0 c)) ∧
  (draw_coll mem I x y d0 N → st.1 = upd V0 0xF 1) ∧
  (¬ draw_coll mem I x y d0 N → st.1 = V0)

/-- The machine of the C5 witness: the word D001 at 0x200 and again at 0x202, I = 0x300 and
the sprite byte 0xFF at memory[0x300], on a blank screen with V[0] = 0. -/
def draw_twice_machine : Chip8 :=
  { construct with
    I := 0x300
    memory := upd (upd (upd (upd (upd construct.memory 0x200 0xD0) 0x201 0x01) 0x202 0xD0)
      0x203 0x01) 0x300 0xFF }

/-- The instruction word reaches one of the `default:` branches of `single_cycle`: 0NNN other
than 00E0 and 00EE, 8XYN with N in 8..13 or 15, EXNN with NN other than 9E and A1, FXNN with
NN none of 07, 0A, 15, 18, 1E, 29, 33, 55, 65. -/
def unknown_word (opcode : Nat) : Prop :=
  (get_nibble opcode 12 0xF000 = 0 ∧ opcode ≠ 0x00E0 ∧ opcode ≠ 0x00EE) ∨
  (get_nibble opcode 12 0xF000 = 8 ∧
    get_nibble opcode 0 0x000F ∈ [8, 9, 10, 11, 12, 13, 15]) ∨
  (get_nibble opcode 12 0xF000 = 14 ∧ get_nibble opcode 0 0x00FF ∉ [0x9E, 0xA1]) ∨
  (get_nibble opcode 12 0xF000 = 15 ∧
    get_nibble opcode 0 0x00FF ∉ [0x07, 0x0A, 0x15, 0x18, 0x1E, 0x29, 0x33, 0x55, 0x65])

instance (opcode : Nat) : Decidable (unknown_word opcode) := by
  unfold unknown_word; infer_instance

/-- The machine states of a host run: a program is loaded into the freshly constructed
machine, then the host calls `single_cycle` any number of times, `set_keypad_value` and
`set_draw_flag` in between as it pleases. Only calls with a defined result are steps; the
guard `G` restricts the states from which a cycle is taken. -/
inductive Reach (G : Chip8 → Prop) : Chip8 → Prop
  | load (rom : List Nat) (s : Chip8) :
      load_rom (some rom) construct = some (true, s) → Reach G s
  | cycle (r : Nat) (s s' : Chip8) :
      Reach G s → G s → single_cycle r s = some s' → Reach G s'
  | key (index : Nat) (val : Int) (s s' : Chip8) :
      Reach G s → set_keypad_value s index val = some s' → Reach G s'
  | flag (b : Bool) (s : Chip8) : Reach G s → Reach G (set_draw_flag s b)

/-- States reachable by loading any program and executing any number of cycles. -/
def Reachable (s : Chip8) : Prop := Reach (fun _ => True) s

/-- Consecutive cycles, one per element of `rs`, the values returned by `rand()`. -/
def cycles : List Nat → Chip8 → Option Chip8
  | [], s => some s
  | r :: rs, s => (single_cycle r s).bind (cycles rs)

/-- The start of `main`: construct the machine, load the ROM bytes, run `rs.length` cycles. -/
def run_rom (rom : List Nat) (rs : List Nat) : Option Chip8 :=
  (load_rom (some rom) construct).bind fun p => cycles rs p.2

/-- The instruction at PC is FX33 or FX55, the two instructions that store to `memory`, and the
index register points below the end of the font. -/
def stores_into_font (s : Chip8) : Prop :=
  match fetch s with
  | some op =>
    get_nibble op 12 0xF000 = 15 ∧
      (get_nibble op 0 0x00FF = 0x33 ∨ get_nibble op 0 0x00FF = 0x55) ∧ s.I < 80
  | none => False

instance (s : Chip8) : Decidable (stores_into_font s) := by
  unfold stores_into_font; split <;> infer_instance

/-- Members that feed the program counter hold values their types and the fetch allow:
registers, memory bytes and the delay timer fit 8 bits, and every stack slot holds an address at
which a fetch is in bounds. -/
def pc_sources_bounded (s : Chip8) : Prop :=
  (∀ i, s.V i < 256) ∧ (∀ a, s.memory a < 256) ∧ s.delay_timer < 256 ∧
    (∀ i, s.stack i ≤ 4094)

/-- Every framebuffer cell holds 0 or 1. -/
def binary_cells (d : Nat → Int) : Prop := ∀ c, d c = 0 ∨ d c = 1

/-- The element `stack[k]` as the compiled object holds it, for any 8-bit index `k`. The data
members lie in declaration order (chip8.h), each at its natural alignment: `V` at bytes 0..15,
`I` at 16, `pc` at 18, `sp` at 20, `stack` at 22..53, `delay_timer` at 54, `sound_timer` at 55,
`memory` from 56 on; 16-bit values are stored low byte first. So `stack[16]` is the pair
`delay_timer`, `sound_timer`, and `stack[k]` for k in 17..255 is the pair
`memory[2 * (k - 17)]`, `memory[2 * (k - 17) + 1]`. -/
def stack_at (s : Chip8) (k : Nat) : Nat :=
  if k < 16 then s.stack k
  else if k = 16 then s.delay_timer + 256 * s.sound_timer
  else s.memory (2 * (k - 17)) + 256 * s.memory (2 * (k - 17) + 1)

/-- The store `stack[k] = v` on the same layout. -/
def stack_store (s : Chip8) (k v : Nat) : Chip8 :=
  if k < 16 then { s with stack := upd s.stack k v }
  else if k = 16 then { s with delay_timer := v % 256, sound_timer := v / 256 % 256 }
  else
    let a := 2 * (k - 17)
    { s with memory := upd (upd s.memory a (v % 256)) (a + 1) (v / 256 % 256) }

/-- The `switch (opcode_msb_nibble)` of `single_cycle` with the two stack accesses performed as
the source writes them, without a bounds check: `case 0x00EE:` is `sp--; pc = stack[sp];
pc += 2;` and `case 2:` is `stack[sp] = pc; sp++; pc = opcode & 0x0FFF;`, whatever `sp` is.
All other instructions are those of `execute`. -/
def execute_raw (r : Nat) (opcode : Nat) (s : Chip8) : Option Chip8 :=
  if opcode = 0x00EE then
    let sp := to_uint8 ((s.sp : Int) - 1)
    some (pc_next { s with sp := sp, pc := stack_at s sp })
  else if get_nibble opcode 12 0xF000 = 2 then
    let s1 := stack_store s s.sp s.pc
    some { s1 with sp := (s.sp + 1) % 256, pc := (opcode &&& 0x0FFF) % 65536 }
  else execute r opcode s

/-- `Chip8::single_cycle` with the unchecked stack accesses: fetch, dispatch, timer decrement. -/
def single_cycle_raw (r : Nat) (s : Chip8) : Option Chip8 :=
  (fetch s).bind fun opcode => (execute_raw r opcode s).map timer_tick

/-- Consecutive cycles with the unchecked stack accesses, one per element of `rs`. -/
def cycles_raw : List Nat → Chip8 → Option Chip8
  | [], s => some s
  | r :: rs, s => (single_cycle_raw r s).bind (cycles_raw rs)

/-- The start of `main` with the unchecked stack accesses: construct, load, run. -/
def run_rom_raw (rom : List Nat) (rs : List Nat) : Option Chip8 :=
  (load_rom (some rom) construct).bind fun p => cycles_raw rs p.2

/-- The stack access of the instruction, if it has one, is inside `stack[0..15]`: a return
(00EE) decrements the stack pointer to a value below 16, so it is not executed with stack
pointer 0; a call (2NNN) is executed with a stack pointer below 16. -/
def stack_access_ok (opcode : Nat) (s : Chip8) : Prop :=
  (opcode = 0x00EE → to_uint8 ((s.sp : Int) - 1) < 16) ∧
    (get_nibble opcode 12 0xF000 = 2 → s.sp < 16)

instance (opcode : Nat) (s : Chip8) : Decidable (stack_access_ok opcode s) := by
  unfold stack_access_ok; infer_instance

/-- The instruction at PC accesses the stack in range, if it accesses it at all. -/
def stack_in_range (s : Chip8) : Prop :=
  match fetch s with
  | some op => stack_access_ok op s
  | none => True

instance (s : Chip8) : Decidable (stack_in_range s) := by
  unfold stack_in_range; split <;> infer_instance

/-- The instruction is a call (2NNN) executed with stack pointer 16: its store `stack[sp] = pc`
lands on the bytes of `delay_timer` and `sound_timer`. -/
def call_hits_timer (opcode : Nat) (s : Chip8) : Prop :=
  get_nibble opcode 12 0xF000 = 2 ∧ s.sp = 16

instance (opcode : Nat) (s : Chip8) : Decidable (call_hits_timer opcode s) := by
  unfold call_hits_timer; infer_instance

/-- The machine states of a host run with the unchecked stack accesses: as `Reach`, with
`single_cycle_raw` for the cycle. The guard `G` restricts the states from which a cycle is
taken. -/
inductive ReachRaw (G : Chip8 → Prop) : Chip8 → Prop
  | load (rom : List Nat) (s : Chip8) :
      load_rom (some rom) construct = some (true, s) → ReachRaw G s
  | cycle (r : Nat) (s s' : Chip8) :
      ReachRaw G s → G s → single_cycle_raw r s = some s' → ReachRaw G s'
  | key (index : Nat) (val : Int) (s s' : Chip8) :
      ReachRaw G s → set_keypad_value s index val = some s' → ReachRaw G s'
  | flag (b : Bool) (s : Chip8) : ReachRaw G s → ReachRaw G (set_draw_flag s b)

end Chip8

/-! ## Auxiliary facts: arrays, casts, bit operations, fallible conditionals -/

@[simp] theorem upd_same {α : Type} (a : Nat → α) (i : Nat) (v : α) : upd a i v i = v := by
  simp [upd]

theorem upd_other {α : Type} (a : Nat → α) (i j : Nat) (v : α) (h : j ≠ i) :
    upd a i v j = a j := by
  simp [upd, h]

theorem to_uint8_to_int8 (n : Nat) : to_uint8 (to_int8 n) = n % 256 := by
  unfold to_uint8 to_int8
  split <;> omega

theorem and_shift_mask (op n k : Nat) :
    (op &&& ((2 ^ k - 1) <<< n)) >>> n = (op / 2 ^ n) % 2 ^ k := by
  apply Nat.eq_of_testBit_eq
  intro i
  simp [Nat.testBit_shiftRight, Nat.testBit_and, Nat.testBit_shiftLeft, Nat.testBit_mod_two_pow,
    Nat.testBit_two_pow_sub_one]
  rw [← Nat.shiftRight_eq_div_pow, Nat.testBit_shiftRight, Bool.and_comm]

/-- Case rule for a conditional whose branches may fail. -/
theorem opt_ite {α : Type} {P : α → Prop} {c : Prop} [Decidable c] {a b : Option α}
    (ha : c → ∀ x, a = some x → P x) (hb : ¬ c → ∀ x, b = some x → P x) :
    ∀ x, (if c then a else b) = some x → P x := by
  intro x h
  by_cases hc : c
  · rw [if_pos hc] at h; exact ha hc x h
  · rw [if_neg hc] at h; exact hb hc x h

theorem opt_some {α : Type} {P : α → Prop} {a : α} (ha : P a) :
    ∀ x, some a = some x → P x := by
  intro x h; cases h; exact ha

theorem opt_some_ite {α : Type} {P : α → Prop} {c : Prop} [Decidable c] {a b : α}
    (ha : c → P a) (hb : ¬ c → P b) :
    ∀ x, some (if c then a else b) = some x → P x := by
  intro x h
  cases h
  by_cases hc : c
  · rw [if_pos hc]; exact ha hc
  · rw [if_neg hc]; exact hb hc

theorem opt_none {α : Type} {P : α → Prop} :
    ∀ x, (none : Option α) = some x → P x := by
  intro x h; cases h

theorem opt_map {α β : Type} {P : β → Prop} {a : Option α} {f : α → β}
    (h : ∀ y, a = some y → P (f y)) : ∀ x, a.map f = some x → P x := by
  intro x hx
  simp only [Option.map_eq_some'] at hx
  obtain ⟨y, hy, rfl⟩ := hx
  exact h y hy

theorem opt_bind {α β : Type} {P : β → Prop} {a : Option α} {f : α → Option β}
    (h : ∀ y, a = some y → ∀ x, f y = some x → P x) : ∀ x, a.bind f = some x → P x := by
  intro x hx
  simp only [Option.bind_eq_some] at hx
  obtain ⟨y, hy, hfy⟩ := hx
  exact h y hy x hfy

theorem int_xor_one_twice (a : Int) : Int.xor (Int.xor a 1) 1 = a := by
  cases a with
  | ofNat n =>
    show Int.ofNat ((n ^^^ 1) ^^^ 1) = Int.ofNat n
    rw [Nat.xor_assoc]; simp
  | negSucc n =>
    show Int.negSucc ((n ^^^ 1) ^^^ 1) = Int.negSucc n
    rw [Nat.xor_assoc]; simp

/-- The mask test of DXYN, `(pixel & (0x80 >> j)) != 0`, reads bit `7 - j` of the sprite byte. -/
theorem mask_test_iff_testBit (pixel j : Nat) (hj : j < 8) :
    pixel &&& (0x80 >>> j) ≠ 0 ↔ pixel.testBit (7 - j) = true := by
  have h2 : (0x80 >>> j) = 2 ^ (7 - j) := by interval_cases j <;> rfl
  rw [h2, Nat.and_two_pow]
  cases pixel.testBit (7 - j) <;> simp

/-- Within one DXYN (at most 16 rows of 8 columns) two different (row, column) pairs never
address the same framebuffer cell. -/
theorem cell_index_inj (x y i j i2 j2 : Nat) (hi : i < 16) (hi2 : i2 < 16) (hj : j < 8)
    (hj2 : j2 < 8)
    (h : ((x + j) + ((y + i) * 64)) % 2048 = ((x + j2) + ((y + i2) * 64)) % 2048) :
    i = i2 ∧ j = j2 := by
  omega

namespace Chip8

/-! ## Instruction fields, fetch and timer tick -/

theorem get_nibble_12 (op : Nat) : get_nibble op 12 0xF000 = op / 4096 % 16 :=
  and_shift_mask op 12 4

theorem get_nibble_8 (op : Nat) : get_nibble op 8 0x0F00 = op / 256 % 16 :=
  and_shift_mask op 8 4

theorem get_nibble_4 (op : Nat) : get_nibble op 4 0x00F0 = op / 16 % 16 :=
  and_shift_mask op 4 4

theorem get_nibble_0_byte (op : Nat) : get_nibble op 0 0x00FF = op % 256 := by
  simpa using and_shift_mask op 0 8

theorem get_nibble_0 (op : Nat) : get_nibble op 0 0x000F = op % 16 := by
  simpa using and_shift_mask op 0 4

theorem and_0FFF (op : Nat) : op &&& 0x0FFF = op % 4096 :=
  Nat.and_pow_two_sub_one_eq_mod op 12

theorem and_000F (op : Nat) : op &&& 0x000F = op % 16 :=
  Nat.and_pow_two_sub_one_eq_mod op 4

/-- A successful fetch means both instruction bytes lie inside `memory`. -/
theorem fetch_some (s : Chip8) (op : Nat) (h : fetch s = some op) :
    s.pc + 1 < 4096 ∧ op = (s.memory s.pc <<< 8) ||| s.memory (s.pc + 1) := by
  unfold fetch mem_read at h
  by_cases h1 : s.pc < 4096 <;> by_cases h2 : s.pc + 1 < 4096 <;> simp [h1, h2] at h
  exact ⟨h2, h.symm⟩

theorem fetch_of_bytes (s : Chip8) (h : s.pc + 1 < 4096) :
    fetch s = some ((s.memory s.pc <<< 8) ||| s.memory (s.pc + 1)) := by
  have h1 : s.pc < 4096 := by omega
  simp [fetch, mem_read, h, h1]

theorem single_cycle_of_fetch (r : Nat) (s : Chip8) (op : Nat) (h : fetch s = some op) :
    single_cycle r s = (execute r op s).map timer_tick := by
  simp [single_cycle, h]

@[simp] theorem timer_tick_V (s : Chip8) : (timer_tick s).V = s.V := by
  unfold timer_tick; split <;> rfl

@[simp] theorem timer_tick_I (s : Chip8) : (timer_tick s).I = s.I := by
  unfold timer_tick; split <;> rfl

@[simp] theorem timer_tick_pc (s : Chip8) : (timer_tick s).pc = s.pc := by
  unfold timer_tick; split <;> rfl

@[simp] theorem timer_tick_sp (s : Chip8) : (timer_tick s).sp = s.sp := by
  unfold timer_tick; split <;> rfl

@[simp] theorem timer_tick_stack (s : Chip8) : (timer_tick s).stack = s.stack := by
  unfold timer_tick; split <;> rfl

@[simp] theorem timer_tick_sound_timer (s : Chip8) :
    (timer_tick s).sound_timer = s.sound_timer := by
  unfold timer_tick; split <;> rfl

@[simp] theorem timer_tick_memory (s : Chip8) : (timer_tick s).memory = s.memory := by
  unfold timer_tick; split <;> rfl

@[simp] theorem timer_tick_display (s : Chip8) : (timer_tick s).display = s.display := by
  unfold timer_tick; split <;> rfl

@[simp] theorem timer_tick_keypad (s : Chip8) : (timer_tick s).keypad = s.keypad := by
  unfold timer_tick; split <;> rfl

@[simp] theorem timer_tick_draw_flag (s : Chip8) : (timer_tick s).draw_flag = s.draw_flag := by
  unfold timer_tick; split <;> rfl

/-- The timer decrement never underflows (for a timer value that fits `uint8_t`). -/
theorem timer_tick_delay_timer (s : Chip8) (h : s.delay_timer < 256) :
    (timer_tick s).delay_timer = s.delay_timer - 1 := by
  unfold timer_tick to_uint8
  split
  · show (((s.delay_timer : Int) - 1) % 256).toNat = s.delay_timer - 1
    omega
  · omega

/-! ## Register/ALU family (C1, C2) -/

/-- 8XY4 away from the flag register: for X and Y in 0..14 the destination receives
`(vx + vy) mod 256` and V[15] the carry. -/
theorem add_8XY4 (r : Nat) (s : Chip8) (X Y : Nat) (hX : X < 15) (hY : Y < 15)
    (h : fetch s = some (0x8004 + 0x100 * X + 0x10 * Y)) :
    ∃ s', single_cycle r s = some s' ∧
      s'.V X = (s.V X + s.V Y) % 256 ∧
      s'.V 0xF = (if s.V X + s.V Y > 255 then 1 else 0) := by
  have e12 : get_nibble (0x8004 + 0x100 * X + 0x10 * Y) 12 0xF000 = 8 := by
    rw [get_nibble_12]; omega
  have e8 : get_nibble (0x8004 + 0x100 * X + 0x10 * Y) 8 0x0F00 = X := by
    rw [get_nibble_8]; omega
  have e4 : get_nibble (0x8004 + 0x100 * X + 0x10 * Y) 4 0x00F0 = Y := by
    rw [get_nibble_4]; omega
  have e0 : get_nibble (0x8004 + 0x100 * X + 0x10 * Y) 0 0x000F = 4 := by
    rw [get_nibble_0]; omega
  have hX15 : X ≠ 15 := by omega
  have hY15 : Y ≠ 15 := by omega
  rw [single_cycle_of_fetch r s _ h]
  simp only [execute, e12, case_8, e0, e8, e4]
  simp [pc_next, upd_other _ _ _ _ hX15, upd_other _ _ _ _ hY15, upd_other _ _ _ _ hX15.symm,
    to_uint8_to_int8]

/-- 8XY4 with the flag register as source (Y = 15), X in 0..14: V[15] is overwritten with the
carry before `V[X] += V[Y]` reads it, so the destination receives `vx + carry`, not
`vx + vy`. -/
theorem add_8XY4_source_flag (r : Nat) (s : Chip8) (X : Nat) (hX : X < 15)
    (h : fetch s = some (0x8004 + 0x100 * X + 0x10 * 15)) :
    ∃ s', single_cycle r s = some s' ∧
      s'.V X = (s.V X + (if s.V X + s.V 0xF > 255 then 1 else 0)) % 256 ∧
      s'.V 0xF = (if s.V X + s.V 0xF > 255 then 1 else 0) := by
  have e12 : get_nibble (0x8004 + 0x100 * X + 0x10 * 15) 12 0xF000 = 8 := by
    rw [get_nibble_12]; omega
  have e8 : get_nibble (0x8004 + 0x100 * X + 0x10 * 15) 8 0x0F00 = X := by
    rw [get_nibble_8]; omega
  have e4 : get_nibble (0x8004 + 0x100 * X + 0x10 * 15) 4 0x00F0 = 15 := by
    rw [get_nibble_4]; omega
  have e0 : get_nibble (0x8004 + 0x100 * X + 0x10 * 15) 0 0x000F = 4 := by
    rw [get_nibble_0]; omega
  have hX15 : X ≠ 15 := by omega
  rw [single_cycle_of_fetch r s _ h]
  simp only [execute, e12, case_8, e0, e8, e4]
  simp [pc_next, upd_other _ _ _ _ hX15, upd_other _ _ _ _ hX15.symm, to_uint8_to_int8]

/-- C1 (8XY4, failing input): on the machine executing 0x80F4 (X = 0, Y = 15) with V[0] = 250
and V[15] = 10, one `single_cycle` leaves V[0] = 251 and V[15] = 1, whereas
`(250 + 10) mod 256 = 4`. -/
theorem add_8XY4_flag_operand :
    fetch (machine_with (upd (upd construct.V 0 250) 0xF 10) 0x80 0xF4) = some 0x80F4 ∧
    (machine_with (upd (upd construct.V 0 250) 0xF 10) 0x80 0xF4).V 0 = 250 ∧
    (machine_with (upd (upd construct.V 0 250) 0xF 10) 0x80 0xF4).V 0xF = 10 ∧
    (single_cycle 0 (machine_with (upd (upd construct.V 0 250) 0xF 10) 0x80 0xF4)).map
      (fun s => (s.V 0, s.V 0xF)) = some (251, 1) ∧
    (250 + 10) % 256 = 4 := by
  refine ⟨by decide, by decide, by decide, by decide, by decide⟩

/-- C2 (8XY5, 8XY7): for X and Y in 0..14, 8XY5 leaves V[X] = (vx - vy) mod 256 and
V[15] = 1 exactly when vx >= vy (0 otherwise); 8XY7 leaves V[X] = (vy - vx) mod 256 and
V[15] = 1 exactly when vy >= vx (0 otherwise). -/
theorem sub_8XY5_8XY7 (r : Nat) (s : Chip8) (X Y : Nat) (hX : X < 15) (hY : Y < 15) :
    (fetch s = some (0x8005 + 0x100 * X + 0x10 * Y) →
      ∃ s', single_cycle r s = some s' ∧
        (s'.V X : Int) = ((s.V X : Int) - (s.V Y : Int)) % 256 ∧
        s'.V 0xF = (if s.V X ≥ s.V Y then 1 else 0)) ∧
    (fetch s = some (0x8007 + 0x100 * X + 0x10 * Y) →
      ∃ s', single_cycle r s = some s' ∧
        (s'.V X : Int) = ((s.V Y : Int) - (s.V X : Int)) % 256 ∧
        s'.V 0xF = (if s.V Y ≥ s.V X then 1 else 0)) := by
  have hX15 : X ≠ 15 := by omega
  have hY15 : Y ≠ 15 := by omega
  have cast_back : ∀ z : Int, ((to_uint8 z : Nat) : Int) = z % 256 := by
    intro z; unfold to_uint8; omega
  constructor
  · intro h
    have e12 : get_nibble (0x8005 + 0x100 * X + 0x10 * Y) 12 0xF000 = 8 := by
      rw [get_nibble_12]; omega
    have e8 : get_nibble (0x8005 + 0x100 * X + 0x10 * Y) 8 0x0F00 = X := by
      rw [get_nibble_8]; omega
    have e4 : get_nibble (0x8005 + 0x100 * X + 0x10 * Y) 4 0x00F0 = Y := by
      rw [get_nibble_4]; omega
    have e0 : get_nibble (0x8005 + 0x100 * X + 0x10 * Y) 0 0x000F = 5 := by
      rw [get_nibble_0]; omega
    rw [single_cycle_of_fetch r s _ h]
    simp only [execute, e12, case_8, e0, e8, e4]
    simp [pc_next, upd_other _ _ _ _ hX15, upd_other _ _ _ _ hY15, upd_other _ _ _ _ hX15.symm,
      cast_back]
    split <;> split <;> omega
  · intro h
    have e12 : get_nibble (0x8007 + 0x100 * X + 0x10 * Y) 12 0xF000 = 8 := by
      rw [get_nibble_12]; omega
    have e8 : get_nibble (0x8007 + 0x100 * X + 0x10 * Y) 8 0x0F00 = X := by
      rw [get_nibble_8]; omega
    have e4 : get_nibble (0x8007 + 0x100 * X + 0x10 * Y) 4 0x00F0 = Y := by
      rw [get_nibble_4]; omega
    have e0 : get_nibble (0x8007 + 0x100 * X + 0x10 * Y) 0 0x000F = 7 := by
      rw [get_nibble_0]; omega
    rw [single_cycle_of_fetch r s _ h]
    simp only [execute, e12, case_8, e0, e8, e4]
    simp [pc_next, upd_other _ _ _ _ hX15, upd_other _ _ _ _ hY15, upd_other _ _ _ _ hX15.symm,
      cast_back]
    split <;> split <;> omega

/-- Witness for C2: 8XY5 with V[0] = 5, V[1] = 10 gives V[0] = 251 and V[15] = 0; 8XY7 with the
same registers gives V[0] = 5 and V[15] = 1. -/
theorem sub_8XY5_8XY7_witness :
    (∃ s', single_cycle 0 (machine_with (upd (upd construct.V 0 5) 1 10) 0x80 0x15) = some s' ∧
      (s'.V 0 : Int) = 251 ∧ s'.V 0xF = 0) ∧
    (∃ s', single_cycle 0 (machine_with (upd (upd construct.V 0 5) 1 10) 0x80 0x17) = some s' ∧
      (s'.V 0 : Int) = 5 ∧ s'.V 0xF = 1) := by
  constructor
  · obtain ⟨s', h1, h2, h3⟩ :=
      (sub_8XY5_8XY7 0 (machine_with (upd (upd construct.V 0 5) 1 10) 0x80 0x15) 0 1
        (by decide) (by decide)).1 (by decide)
    exact ⟨s', h1, h2.trans (by decide), h3.trans (by decide)⟩
  · obtain ⟨s', h1, h2, h3⟩ :=
      (sub_8XY5_8XY7 0 (machine_with (upd (upd construct.V 0 5) 1 10) 0x80 0x17) 0 1
        (by decide) (by decide)).2 (by decide)
    exact ⟨s', h1, h2.trans (by decide), h3.trans (by decide)⟩

/-! ## Control-flow family (C3, C4) -/

/-- C3 (conditional skips 3XNN, 4XNN, 5XY0, 9XY0): the program counter becomes P+4 when the
condition holds and P+2 otherwise (modulo 2^16), and registers, I, stack, stack pointer,
memory, framebuffer and keypad are unchanged. -/
theorem skip_instructions (r : Nat) (s : Chip8) (X Y NN : Nat)
    (hX : X < 16) (hY : Y < 16) (hNN : NN < 256) :
    (fetch s = some (0x3000 + 0x100 * X + NN) →
      ∃ s', single_cycle r s = some s' ∧ skip_frame s s' ∧
        s'.pc = (if s.V X = NN then s.pc + 4 else s.pc + 2) % 65536) ∧
    (fetch s = some (0x4000 + 0x100 * X + NN) →
      ∃ s', single_cycle r s = some s' ∧ skip_frame s s' ∧
        s'.pc = (if s.V X ≠ NN then s.pc + 4 else s.pc + 2) % 65536) ∧
    (fetch s = some (0x5000 + 0x100 * X + 0x10 * Y) →
      ∃ s', single_cycle r s = some s' ∧ skip_frame s s' ∧
        s'.pc = (if s.V X = s.V Y then s.pc + 4 else s.pc + 2) % 65536) ∧
    (fetch s = some (0x9000 + 0x100 * X + 0x10 * Y) →
      ∃ s', single_cycle r s = some s' ∧ skip_frame s s' ∧
        s'.pc = (if s.V X ≠ s.V Y then s.pc + 4 else s.pc + 2) % 65536) := by
  refine ⟨?_, ?_, ?_, ?_⟩
  · intro h
    have e12 : get_nibble (0x3000 + 0x100 * X + NN) 12 0xF000 = 3 := by
      rw [get_nibble_12]; omega
    have e8 : get_nibble (0x3000 + 0x100 * X + NN) 8 0x0F00 = X := by
      rw [get_nibble_8]; omega
    have e0 : get_nibble (0x3000 + 0x100 * X + NN) 0 0x00FF = NN := by
      rw [get_nibble_0_byte]; omega
    rw [single_cycle_of_fetch r s _ h]
    simp only [execute, e12, e8, e0]
    by_cases hc : s.V X = NN <;> simp [hc, pc_next, skip_frame]
  · intro h
    have e12 : get_nibble (0x4000 + 0x100 * X + NN) 12 0xF000 = 4 := by
      rw [get_nibble_12]; omega
    have e8 : get_nibble (0x4000 + 0x100 * X + NN) 8 0x0F00 = X := by
      rw [get_nibble_8]; omega
    have e0 : get_nibble (0x4000 + 0x100 * X + NN) 0 0x00FF = NN := by
      rw [get_nibble_0_byte]; omega
    rw [single_cycle_of_fetch r s _ h]
    simp only [execute, e12, e8, e0]
    by_cases hc : s.V X = NN <;> simp [hc, pc_next, skip_frame]
  · intro h
    have e12 : get_nibble (0x5000 + 0x100 * X + 0x10 * Y) 12 0xF000 = 5 := by
      rw [get_nibble_12]; omega
    have e8 : get_nibble (0x5000 + 0x100 * X + 0x10 * Y) 8 0x0F00 = X := by
      rw [get_nibble_8]; omega
    have e4 : get_nibble (0x5000 + 0x100 * X + 0x10 * Y) 4 0x00F0 = Y := by
      rw [get_nibble_4]; omega
    rw [single_cycle_of_fetch r s _ h]
    simp only [execute, e12, e8, e4]
    by_cases hc : s.V X = s.V Y <;> simp [hc, pc_next, skip_frame]
  · intro h
    have e12 : get_nibble (0x9000 + 0x100 * X + 0x10 * Y) 12 0xF000 = 9 := by
      rw [get_nibble_12]; omega
    have e8 : get_nibble (0x9000 + 0x100 * X + 0x10 * Y) 8 0x0F00 = X := by
      rw [get_nibble_8]; omega
    have e4 : get_nibble (0x9000 + 0x100 * X + 0x10 * Y) 4 0x00F0 = Y := by
      rw [get_nibble_4]; omega
    rw [single_cycle_of_fetch r s _ h]
    simp only [execute, e12, e8, e4]
    by_cases hc : s.V X = s.V Y <;> simp [hc, pc_next, skip_frame]

/-- Witness for C3: with V[2] = 0x42 the word 3242 moves the program counter from 0x200 to
0x204, and 4242 moves it to 0x202; with V[2] = V[3] the word 5230 moves it to 0x204 and 9230
to 0x202. -/
theorem skip_instructions_witness :
    (∃ s', single_cycle 0 (machine_with (upd (upd construct.V 2 0x42) 3 0x42) 0x32 0x42) = some s'
      ∧ s'.pc = 0x204) ∧
    (∃ s', single_cycle 0 (machine_with (upd (upd construct.V 2 0x42) 3 0x42) 0x42 0x42) = some s'
      ∧ s'.pc = 0x202) ∧
    (∃ s', single_cycle 0 (machine_with (upd (upd construct.V 2 0x42) 3 0x42) 0x52 0x30) = some s'
      ∧ s'.pc = 0x204) ∧
    (∃ s', single_cycle 0 (machine_with (upd (upd construct.V 2 0x42) 3 0x42) 0x92 0x30) = some s'
      ∧ s'.pc = 0x202) := by
  refine ⟨?_, ?_, ?_, ?_⟩
  · obtain ⟨s', h1, _, h3⟩ :=
      (skip_instructions 0 (machine_with (upd (upd construct.V 2 0x42) 3 0x42) 0x32 0x42)
        2 3 0x42 (by decide) (by decide) (by decide)).1 (by decide)
    exact ⟨s', h1, h3.trans (by decide)⟩
  · obtain ⟨s', h1, _, h3⟩ :=
      (skip_instructions 0 (machine_with (upd (upd construct.V 2 0x42) 3 0x42) 0x42 0x42)
        2 3 0x42 (by decide) (by decide) (by decide)).2.1 (by decide)
    exact ⟨s', h1, h3.trans (by decide)⟩
  · obtain ⟨s', h1, _, h3⟩ :=
      (skip_instructions 0 (machine_with (upd (upd construct.V 2 0x42) 3 0x42) 0x52 0x30)
        2 3 0x42 (by decide) (by decide) (by decide)).2.2.1 (by decide)
    exact ⟨s', h1, h3.trans (by decide)⟩
  · obtain ⟨s', h1, _, h3⟩ :=
      (skip_instructions 0 (machine_with (upd (upd construct.V 2 0x42) 3 0x42) 0x92 0x30)
        2 3 0x42 (by decide) (by decide) (by decide)).2.2.2 (by decide)
    exact ⟨s', h1, h3.trans (by decide)⟩

/-- C4 (call/return round trip): with PC = P, stack pointer s < 16 and the word 2NNN at P, one
`single_cycle` gives PC = NNN, stack pointer s + 1 and stack[s] = P; and executing 00EE in any
state whose stack pointer is s + 1 and whose stack[s] is P (in particular the state right
after the call, when 00EE is the word at NNN) gives PC = P + 2 and stack pointer s. -/
theorem call_return_round_trip (r : Nat) (s : Chip8) (NNN : Nat) (hN : NNN < 4096)
    (hsp : s.sp < 16) (h : fetch s = some (0x2000 + NNN)) :
    ∃ s1, single_cycle r s = some s1 ∧ s1.pc = NNN ∧ s1.sp = s.sp + 1 ∧
      s1.stack s.sp = s.pc ∧
      (∀ (r2 : Nat) (t : Chip8), fetch t = some 0x00EE → t.sp = s.sp + 1 →
        t.stack s.sp = s.pc →
        ∃ t2, single_cycle r2 t = some t2 ∧ t2.pc = s.pc + 2 ∧ t2.sp = s.sp) ∧
      (fetch s1 = some 0x00EE →
        ∃ s2, single_cycle r s1 = some s2 ∧ s2.pc = s.pc + 2 ∧ s2.sp = s.sp) := by
  have hpc := (fetch_some s _ h).1
  have e12 : get_nibble (0x2000 + NNN) 12 0xF000 = 2 := by
    rw [get_nibble_12]; omega
  have eN : (0x2000 + NNN) &&& 0x0FFF = NNN := by
    rw [and_0FFF]; omega
  have hret : ∀ (r2 : Nat) (t : Chip8), fetch t = some 0x00EE → t.sp = s.sp + 1 →
      t.stack s.sp = s.pc →
      ∃ t2, single_cycle r2 t = some t2 ∧ t2.pc = s.pc + 2 ∧ t2.sp = s.sp := by
    intro r2 t ht hts htk
    have e12t : get_nibble 0x00EE 12 0xF000 = 0 := by decide
    have hdec : to_uint8 ((t.sp : Int) - 1) = s.sp := by
      unfold to_uint8; omega
    rw [single_cycle_of_fetch r2 t _ ht]
    simp only [execute, e12t, case_0, hdec]
    simp [pc_next, hsp, htk]
    omega
  have hstep : single_cycle r s = some (timer_tick
      { s with stack := upd s.stack s.sp s.pc, sp := (s.sp + 1) % 256,
               pc := ((0x2000 + NNN) &&& 0x0FFF) % 65536 }) := by
    rw [single_cycle_of_fetch r s _ h]
    simp only [execute, e12]
    simp [hsp]
  have hsp1 : (s.sp + 1) % 256 = s.sp + 1 := by omega
  have hpcN : NNN % 65536 = NNN := by omega
  refine ⟨_, hstep, ?_, ?_, ?_, hret, ?_⟩
  · simp [eN, hpcN]
  · simp [hsp1]
  · simp
  · intro h1
    exact hret r _ h1 (by simp [hsp1]) (by simp)

/-- Witness for C4: the call 2300 at 0x200 on a fresh machine (stack pointer 0) gives PC = 0x300,
stack pointer 1 and stack[0] = 0x200; and 00EE executed at 0x300 with stack pointer 1 and
stack[0] = 0x200 gives PC = 0x202 and stack pointer 0. -/
theorem call_return_round_trip_witness :
    (∃ s1, single_cycle 0 (machine_with construct.V 0x23 0x00) = some s1 ∧ s1.pc = 0x300 ∧
      s1.sp = 1 ∧ s1.stack 0 = 0x200) ∧
    (∃ t2, single_cycle 0
        { construct with
          pc := 0x300, sp := 1, stack := upd construct.stack 0 0x200,
          memory := upd (upd construct.memory 0x300 0x00) 0x301 0xEE } = some t2 ∧
      t2.pc = 0x202 ∧ t2.sp = 0) := by
  obtain ⟨s1, h1, h2, h3, h4, h5, _⟩ :=
    call_return_round_trip 0 (machine_with construct.V 0x23 0x00) 0x300
      (by decide) (by decide) (by decide)
  exact ⟨⟨s1, h1, h2, h3, h4⟩, h5 0 _ (by decide) (by decide) (by decide)⟩

/-! ## Clear screen, BCD store, program load (C7, C8, C10) -/

/-- C7 (00E0): whatever the framebuffer held, one `single_cycle` on the word 00E0 leaves all
2048 framebuffer cells 0, sets the redraw flag, advances PC by 2, and leaves registers, I,
stack, stack pointer, memory and keypad unchanged. -/
theorem clear_screen (r : Nat) (s : Chip8) (h : fetch s = some 0x00E0) :
    ∃ s', single_cycle r s = some s' ∧
      (∀ c, c < 2048 → get_display_value s' c = some 0) ∧
      get_draw_flag s' = true ∧ s'.pc = s.pc + 2 ∧
      s'.V = s.V ∧ s'.I = s.I ∧ s'.stack = s.stack ∧ s'.sp = s.sp ∧
      s'.memory = s.memory ∧ s'.keypad = s.keypad := by
  have hpc := (fetch_some s _ h).1
  have e12 : get_nibble 0x00E0 12 0xF000 = 0 := by decide
  have hnext : (s.pc + 2) % 65536 = s.pc + 2 := by omega
  rw [single_cycle_of_fetch r s _ h]
  simp only [execute, e12, case_0]
  simp [pc_next, get_display_value, get_draw_flag, hnext]

/-- Witness for C7: a machine whose framebuffer is 7 everywhere, executing 00E0 at 0x200. -/
theorem clear_screen_witness :
    ∃ s', single_cycle 0 { machine_with construct.V 0x00 0xE0 with display := fun _ => 7 } =
        some s' ∧
      (∀ c, c < 2048 → get_display_value s' c = some 0) ∧ get_draw_flag s' = true ∧
      s'.pc = 0x202 := by
  obtain ⟨s', h1, h2, h3, h4, _⟩ :=
    clear_screen 0 { machine_with construct.V 0x00 0xE0 with display := fun _ => 7 } (by decide)
  exact ⟨s', h1, h2, h3, h4⟩

/-- C8 (FX33): with I + 2 <= 4095 and v = V[X] (a `uint8_t` value), one `single_cycle` leaves
memory[I], memory[I+1], memory[I+2] each in 0..9 with
`100 * memory[I] + 10 * memory[I+1] + memory[I+2] = v`, leaves every other memory byte, every
register and I unchanged, and advances PC by 2. -/
theorem bcd_store (r : Nat) (s : Chip8) (X : Nat) (hX : X < 16)
    (h : fetch s = some (0xF033 + 0x100 * X)) (hI : s.I + 2 ≤ 4095) (hv : s.V X < 256) :
    ∃ s', single_cycle r s = some s' ∧
      s'.memory s.I ≤ 9 ∧ s'.memory (s.I + 1) ≤ 9 ∧ s'.memory (s.I + 2) ≤ 9 ∧
      100 * s'.memory s.I + 10 * s'.memory (s.I + 1) + s'.memory (s.I + 2) = s.V X ∧
      (∀ a, a ≠ s.I → a ≠ s.I + 1 → a ≠ s.I + 2 → s'.memory a = s.memory a) ∧
      s'.V = s.V ∧ s'.I = s.I ∧ s'.pc = s.pc + 2 := by
  have hpc := (fetch_some s _ h).1
  have e12 : get_nibble (0xF033 + 0x100 * X) 12 0xF000 = 15 := by
    rw [get_nibble_12]; omega
  have e8 : get_nibble (0xF033 + 0x100 * X) 8 0x0F00 = X := by
    rw [get_nibble_8]; omega
  have e0 : get_nibble (0xF033 + 0x100 * X) 0 0x00FF = 0x33 := by
    rw [get_nibble_0_byte]; omega
  have hnext : (s.pc + 2) % 65536 = s.pc + 2 := by omega
  have h0 : s.I < 4096 := by omega
  have h1 : s.I + 1 < 4096 := by omega
  have h2 : s.I + 2 < 4096 := by omega
  rw [single_cycle_of_fetch r s _ h]
  simp only [execute, e12, case_15, e0, e8]
  simp [mem_write, h0, h1, h2, pc_next, hnext, upd]
  refine ⟨by omega, by omega, by omega, by omega, ?_⟩
  intro a ha0 ha1 ha2
  simp [ha0, ha1, ha2]

/-- Witness for C8: V[3] = 254 and I = 0x300 write 2, 5, 4 to memory[0x300..0x302]. -/
theorem bcd_store_witness :
    ∃ s', single_cycle 0 { machine_with (upd construct.V 3 254) 0xF3 0x33 with I := 0x300 } =
        some s' ∧
      s'.memory 0x300 ≤ 9 ∧ s'.memory 0x301 ≤ 9 ∧ s'.memory 0x302 ≤ 9 ∧
      100 * s'.memory 0x300 + 10 * s'.memory 0x301 + s'.memory 0x302 = 254 := by
  obtain ⟨s', h1, h2, h3, h4, h5, _⟩ :=
    bcd_store 0 { machine_with (upd construct.V 3 254) 0xF3 0x33 with I := 0x300 } 3
      (by decide) (by decide) (by decide) (by decide)
  exact ⟨s', h1, h2, h3, h4, h5⟩

/-- The read loop of `load_rom` stays in bounds when the remaining bytes fit below 4096, writes
byte `k` of the remaining input at `i + k`, and leaves every other cell alone. -/
theorem load_loop_spec (bytes : List Nat) :
    ∀ (i : Nat) (m : Nat → Nat), i + bytes.length ≤ 4096 →
      ∃ m', load_loop bytes i m = some m' ∧
        (∀ k, k < bytes.length → m' (i + k) = bytes.getD k 0 % 256) ∧
        (∀ a, a < i ∨ i + bytes.length ≤ a → m' a = m a) := by
  induction bytes with
  | nil =>
    intro i m _
    exact ⟨m, rfl, by simp, by simp⟩
  | cons c rest ih =>
    intro i m hlen
    simp only [List.length_cons] at hlen
    have hi : i < 4096 := by omega
    obtain ⟨m', hm', hk, ha⟩ := ih (i + 1) (upd m i (c % 256)) (by omega)
    refine ⟨m', by simp [load_loop, mem_write, hi, hm'], ?_, ?_⟩
    · intro k hk'
      cases k with
      | zero =>
        show m' i = _
        rw [ha i (Or.inl (by omega))]
        simp
      | succ k =>
        simp only [List.length_cons] at hk'
        have := hk k (by omega)
        rw [show i + (k + 1) = i + 1 + k by omega, this]
        simp
    · intro a haa
      simp only [List.length_cons] at haa
      rw [ha a (by omega)]
      exact upd_other _ _ _ _ (by omega)

/-- C10 (`load_rom`): for a ROM of n <= 3584 bytes, loading into a freshly constructed machine
succeeds (returns `true`), leaves memory[512 + k] = r[k] for every k < n, leaves memory[0..511]
(the font in 0..79 included) and memory[512 + n ..] as they were, and changes no register, PC,
stack or framebuffer state. -/
theorem load_rom_spec (rom : List Nat) (hlen : rom.length ≤ 3584)
    (hbytes : ∀ b, b ∈ rom → b < 256) :
    ∃ s', load_rom (some rom) construct = some (true, s') ∧
      (∀ k, k < rom.length → s'.memory (512 + k) = rom.getD k 0) ∧
      (∀ a, a < 512 ∨ 512 + rom.length ≤ a → s'.memory a = construct.memory a) ∧
      (∀ i, i < 80 → s'.memory i = chip8_fontset.getD i 0) ∧
      s'.V = construct.V ∧ s'.I = construct.I ∧ s'.pc = construct.pc ∧
      s'.sp = construct.sp ∧ s'.stack = construct.stack ∧
      s'.delay_timer = construct.delay_timer ∧ s'.sound_timer = construct.sound_timer ∧
      s'.display = construct.display ∧ s'.keypad = construct.keypad ∧
      s'.draw_flag = construct.draw_flag := by
  obtain ⟨m', hm', hk, ha⟩ := load_loop_spec rom 0x200 construct.memory (by omega)
  refine ⟨{ construct with memory := m' }, by simp [load_rom, hm'], ?_, ?_, ?_,
    rfl, rfl, rfl, rfl, rfl, rfl, rfl, rfl, rfl, rfl⟩
  · intro k hk'
    show m' (0x200 + k) = _
    rw [hk k hk']
    have hmem : rom.getD k 0 ∈ rom := by
      rw [List.getD_eq_getElem _ _ hk']
      exact List.getElem_mem hk'
    exact Nat.mod_eq_of_lt (hbytes _ hmem)
  · intro a haa
    exact ha a haa
  · intro i hi
    show m' i = _
    rw [ha i (Or.inl (by omega))]
    simp [construct, hi]

/-- Witness for C10: loading the three bytes 0x12, 0x34, 0x56. -/
theorem load_rom_spec_witness :
    ∃ s', load_rom (some [0x12, 0x34, 0x56]) construct = some (true, s') ∧
      s'.memory 512 = 0x12 ∧ s'.memory 513 = 0x34 ∧ s'.memory 514 = 0x56 ∧
      s'.memory 515 = 0 ∧ s'.memory 0 = 0xF0 ∧ s'.pc = 0x200 := by
  obtain ⟨s', h1, h2, h3, h4, _, _, h5, _⟩ :=
    load_rom_spec [0x12, 0x34, 0x56] (by decide) (by decide)
  exact ⟨s', h1, h2 0 (by decide), h2 1 (by decide), h2 2 (by decide),
    (h3 515 (by decide)).trans (by decide), h4 0 (by decide), h5⟩

/-! ## Delay timer (C9) -/

theorem case_0_delay_timer (op : Nat) (s : Chip8) :
    ∀ s', case_0 op s = some s' → s'.delay_timer = s.delay_timer := by
  unfold case_0
  dsimp only
  repeat' first
    | exact opt_none
    | exact opt_some rfl
    | (apply opt_ite <;> intro _)

theorem case_8_delay_timer (op : Nat) (s : Chip8) :
    ∀ s', case_8 op s = some s' → s'.delay_timer = s.delay_timer := by
  unfold case_8
  dsimp only
  repeat' first
    | exact opt_none
    | exact opt_some rfl
    | (apply opt_ite <;> intro _)

theorem case_13_delay_timer (op : Nat) (s : Chip8) :
    ∀ s', case_13 op s = some s' → s'.delay_timer = s.delay_timer := by
  unfold case_13
  dsimp only
  apply opt_map
  intro _ _
  rfl

theorem case_14_delay_timer (op : Nat) (s : Chip8) :
    ∀ s', case_14 op s = some s' → s'.delay_timer = s.delay_timer := by
  unfold case_14
  dsimp only
  repeat' first
    | exact opt_none
    | exact opt_some rfl
    | exact opt_some_ite (fun _ => rfl) (fun _ => rfl)
    | (apply opt_ite <;> intro _)

theorem case_15_delay_timer (op : Nat) (s : Chip8) (hne : get_nibble op 0 0x00FF ≠ 0x15) :
    ∀ s', case_15 op s = some s' → s'.delay_timer = s.delay_timer := by
  unfold case_15
  dsimp only
  repeat' first
    | exact opt_none
    | exact opt_some rfl
    | exact opt_some_ite (fun _ => rfl) (fun _ => rfl)
    | (apply opt_ite <;> intro _)
    | (apply opt_map; intro _ _; rfl)
    | (apply opt_bind; intro _ _)
  contradiction

/-- Only FX15 writes the delay timer inside the instruction switch. -/
theorem execute_delay_timer (r op : Nat) (s : Chip8) (hne : ¬ is_FX15 op) :
    ∀ s', execute r op s = some s' → s'.delay_timer = s.delay_timer := by
  unfold execute
  dsimp only
  repeat' first
    | exact opt_none
    | exact opt_some rfl
    | exact opt_some_ite (fun _ => rfl) (fun _ => rfl)
    | exact case_0_delay_timer _ _
    | exact case_8_delay_timer _ _
    | exact case_13_delay_timer _ _
    | exact case_14_delay_timer _ _
    | exact case_15_delay_timer _ _ (fun hval => hne ⟨by assumption, hval⟩)
    | (apply opt_ite <;> intro _)

/-- FX15 followed by the decrement at the end of the same cycle: the timer holds V[X] - 1
(or 0 when V[X] = 0) after the cycle. -/
theorem single_cycle_FX15 (r : Nat) (s : Chip8) (X : Nat) (hX : X < 16)
    (hf : fetch s = some (0xF015 + 0x100 * X)) (hv : s.V X < 256) :
    ∃ s', single_cycle r s = some s' ∧ s'.delay_timer = s.V X - 1 := by
  have e12 : get_nibble (0xF015 + 0x100 * X) 12 0xF000 = 15 := by
    rw [get_nibble_12]; omega
  have e8 : get_nibble (0xF015 + 0x100 * X) 8 0x0F00 = X := by
    rw [get_nibble_8]; omega
  have e0 : get_nibble (0xF015 + 0x100 * X) 0 0x00FF = 0x15 := by
    rw [get_nibble_0_byte]; omega
  rw [single_cycle_of_fetch r s _ hf]
  simp only [execute, e12, case_15, e0, e8]
  simp only [Nat.reduceEqDiff, if_false, if_true, Option.map_some', Option.some.injEq,
    exists_eq_left']
  rw [timer_tick_delay_timer _ (by simpa [pc_next] using hv)]
  rfl

/-! ## Sprite drawing (C5, C6) -/

theorem draw_hit_succ (mem : Nat → Nat) (I x y i k c : Nat) (hk : k < 8) :
    draw_hit mem I x y (8 * i + k + 1) c ↔
      draw_hit mem I x y (8 * i + k) c ∨
        (mem (I + i) &&& (0x80 >>> k) ≠ 0 ∧ ((x + k) + ((y + i) * 64)) % 2048 = c) := by
  constructor
  · rintro ⟨i2, j2, hj2, hlt, hb, hc⟩
    by_cases hlast : 8 * i2 + j2 < 8 * i + k
    · exact Or.inl ⟨i2, j2, hj2, hlast, hb, hc⟩
    · have hi : i2 = i := by omega
      have hj : j2 = k := by omega
      subst hi; subst hj
      exact Or.inr ⟨hb, hc⟩
  · rintro (⟨i2, j2, hj2, hlt, hb, hc⟩ | ⟨hb, hc⟩)
    · exact ⟨i2, j2, hj2, by omega, hb, hc⟩
    · exact ⟨i, k, hk, by omega, hb, hc⟩

theorem draw_coll_succ (mem : Nat → Nat) (I x y : Nat) (d0 : Nat → Int) (i k : Nat)
    (hk : k < 8) :
    draw_coll mem I x y d0 (8 * i + k + 1) ↔
      draw_coll mem I x y d0 (8 * i + k) ∨
        (mem (I + i) &&& (0x80 >>> k) ≠ 0 ∧ d0 (((x + k) + ((y + i) * 64)) % 2048) = 1) := by
  constructor
  · rintro ⟨i2, j2, hj2, hlt, hb, hc⟩
    by_cases hlast : 8 * i2 + j2 < 8 * i + k
    · exact Or.inl ⟨i2, j2, hj2, hlast, hb, hc⟩
    · have hi : i2 = i := by omega
      have hj : j2 = k := by omega
      subst hi; subst hj
      exact Or.inr ⟨hb, hc⟩
  · rintro (⟨i2, j2, hj2, hlt, hb, hc⟩ | ⟨hb, hc⟩)
    · exact ⟨i2, j2, hj2, by omega, hb, hc⟩
    · exact ⟨i, k, hk, by omega, hb, hc⟩

/-- The cell of the pair about to be processed has not been addressed before. -/
theorem draw_hit_fresh (mem : Nat → Nat) (I x y i k : Nat) (hi : i < 16) (hk : k < 8) :
    ¬ draw_hit mem I x y (8 * i + k) (((x + k) + ((y + i) * 64)) % 2048) := by
  rintro ⟨i2, j2, hj2, hlt, _, hc⟩
  have := cell_index_inj x y i2 j2 i k (by omega) hi hj2 hk hc
  omega

theorem upd_flag_idem (V : Nat → Nat) : upd (upd V 0xF 1) 0xF 1 = upd V 0xF 1 := by
  funext j
  by_cases hj : j = 0xF <;> simp [upd, hj]

/-- One iteration of the inner loop keeps the invariant. -/
theorem draw_cols_inv (mem : Nat → Nat) (I x y : Nat) (V0 : Nat → Nat) (d0 : Nat → Int)
    (i : Nat) (hi : i < 16) (st : (Nat → Nat) × (Nat → Int))
    (h0 : draw_inv mem I x y V0 d0 (8 * i) st) :
    ∀ k, k ≤ 8 → draw_inv mem I x y V0 d0 (8 * i + k) (draw_cols (mem (I + i)) x y i k st) := by
  intro k
  induction k with
  | zero => intro _; exact h0
  | succ k ih =>
    intro hk
    have hk8 : k < 8 := by omega
    have inv := ih (by omega)
    obtain ⟨hd, hc1, hc0⟩ := inv
    have hfresh := draw_hit_fresh mem I x y i k hi hk8
    have hcell := (hd (((x + k) + ((y + i) * 64)) % 2048)).2 hfresh
    show draw_inv mem I x y V0 d0 (8 * i + k + 1) (draw_cols (mem (I + i)) x y i (k + 1) st)
    by_cases hb : mem (I + i) &&& (0x80 >>> k) ≠ 0
    · simp only [draw_cols, hb, if_true, ne_eq, not_false_eq_true]
      refine ⟨?_, ?_, ?_⟩
      · intro c
        dsimp only
        rw [draw_hit_succ mem I x y i k c hk8]
        by_cases hcc : c = ((x + k) + ((y + i) * 64)) % 2048
        · subst hcc
          refine ⟨fun _ => ?_, fun hn => absurd (Or.inr ⟨hb, rfl⟩) hn⟩
          rw [upd_same, hcell]
        · rw [upd_other _ _ _ _ hcc]
          refine ⟨fun h => ?_, fun hn => ?_⟩
          · rcases h with h | ⟨_, h⟩
            · exact (hd c).1 h
            · exact absurd h.symm hcc
          · exact (hd c).2 (fun h => hn (Or.inl h))
      · dsimp only
        rw [draw_coll_succ mem I x y d0 i k hk8, hcell]
        intro h
        by_cases hone : d0 (((x + k) + ((y + i) * 64)) % 2048) = 1
        · rw [if_pos hone]
          by_cases hprev : draw_coll mem I x y d0 (8 * i + k)
          · rw [hc1 hprev, upd_flag_idem]
          · rw [hc0 hprev]
        · rw [if_neg hone]
          rcases h with h | ⟨_, h⟩
          · exact hc1 h
          · exact absurd h hone
      · dsimp only
        rw [draw_coll_succ mem I x y d0 i k hk8, hcell]
        intro h
        have hone : ¬ d0 (((x + k) + ((y + i) * 64)) % 2048) = 1 :=
          fun h1 => h (Or.inr ⟨hb, h1⟩)
        rw [if_neg hone]
        exact hc0 (fun hp => h (Or.inl hp))
    · simp only [draw_cols, hb, if_false]
      refine ⟨?_, ?_, ?_⟩
      · intro c
        rw [draw_hit_succ mem I x y i k c hk8]
        refine ⟨fun h => ?_, fun hn => (hd c).2 (fun h => hn (Or.inl h))⟩
        rcases h with h | ⟨h, _⟩
        · exact (hd c).1 h
        · exact absurd h hb
      · rw [draw_coll_succ mem I x y d0 i k hk8]
        intro h
        rcases h with h | ⟨h, _⟩
        · exact hc1 h
        · exact absurd h hb
      · rw [draw_coll_succ mem I x y d0 i k hk8]
        intro h
        exact hc0 (fun hp => h (Or.inl hp))

/-- The outer loop stays in bounds when `I + n <= 4096` and keeps the invariant. -/
theorem draw_rows_inv (mem : Nat → Nat) (I x y : Nat) (V0 : Nat → Nat) (d0 : Nat → Int) :
    ∀ n, n ≤ 16 → I + n ≤ 4096 →
      ∃ st, draw_rows mem I x y n (V0, d0) = some st ∧ draw_inv mem I x y V0 d0 (8 * n) st := by
  intro n
  induction n with
  | zero =>
    intro _ _
    refine ⟨(V0, d0), rfl, ?_, ?_, ?_⟩
    · intro c
      refine ⟨fun h => ?_, fun _ => rfl⟩
      obtain ⟨i, j, _, hlt, _⟩ := h
      omega
    · rintro ⟨i, j, _, hlt, _⟩
      omega
    · intro _; rfl
  | succ n ih =>
    intro hn hI
    obtain ⟨st, hst, hinv⟩ := ih (by omega) (by omega)
    have hread : mem_read mem (I + n) = some (mem (I + n)) := by
      simp [mem_read]; omega
    refine ⟨draw_cols (mem (I + n)) x y n 8 st, by simp [draw_rows, hst, hread], ?_⟩
    have := draw_cols_inv mem I x y V0 d0 n (by omega) st hinv 8 (le_refl 8)
    rw [show 8 * (n + 1) = 8 * n + 8 by omega]
    exact this

/-- One cycle on DXYN with the sprite rows inside memory: the cycle returns a state whose
registers and framebuffer satisfy the loop invariant after all `8 * N` (row, column) pairs,
relative to the registers with V[15] cleared and the framebuffer before the instruction. -/
theorem draw_cycle (r : Nat) (s : Chip8) (X Y N : Nat) (hX : X < 16) (hY : Y < 16)
    (hN : N < 16) (h : fetch s = some (0xD000 + 0x100 * X + 0x10 * Y + N))
    (hI : s.I + N ≤ 4096) :
    ∃ s', single_cycle r s = some s' ∧
      draw_inv s.memory s.I (upd s.V 0xF 0 X) (upd s.V 0xF 0 Y) (upd s.V 0xF 0) s.display
        (8 * N) (s'.V, s'.display) ∧
      s'.draw_flag = true ∧ s'.memory = s.memory ∧ s'.I = s.I ∧ s'.pc = s.pc + 2 ∧
      s'.stack = s.stack ∧ s'.sp = s.sp ∧ s'.keypad = s.keypad := by
  have hpc := (fetch_some s _ h).1
  have e12 : get_nibble (0xD000 + 0x100 * X + 0x10 * Y + N) 12 0xF000 = 13 := by
    rw [get_nibble_12]; omega
  have e8 : get_nibble (0xD000 + 0x100 * X + 0x10 * Y + N) 8 0x0F00 = X := by
    rw [get_nibble_8]; omega
  have e4 : get_nibble (0xD000 + 0x100 * X + 0x10 * Y + N) 4 0x00F0 = Y := by
    rw [get_nibble_4]; omega
  have e0 : (0xD000 + 0x100 * X + 0x10 * Y + N) &&& 0x000F = N := by
    rw [and_000F]; omega
  have hnext : (s.pc + 2) % 65536 = s.pc + 2 := by omega
  obtain ⟨st, hst, hinv⟩ := draw_rows_inv s.memory s.I (upd s.V 0xF 0 X) (upd s.V 0xF 0 Y)
    (upd s.V 0xF 0) s.display N (by omega) hI
  rw [single_cycle_of_fetch r s _ h]
  simp only [execute, e12, case_13, e8, e4, e0]
  simp only [Nat.reduceEqDiff, if_false, if_true, hst, Option.map_some', Option.some.injEq,
    exists_eq_left', timer_tick_V, timer_tick_display, timer_tick_draw_flag, timer_tick_memory,
    timer_tick_I, timer_tick_pc, timer_tick_stack, timer_tick_sp, timer_tick_keypad, pc_next,
    hnext, and_self, and_true]
  exact hinv

/-- Clearing V[15] gives the same registers before the first and before the second of two
consecutive draws. -/
theorem upd_flag_clear (V V1 : Nat → Nat)
    (h : V1 = upd (upd V 0xF 0) 0xF 1 ∨ V1 = upd V 0xF 0) : upd V1 0xF 0 = upd V 0xF 0 := by
  funext j
  rcases h with h | h <;> subst h <;> by_cases hj : j = 0xF <;> simp [upd, hj]

/-- C5 (drawing twice): for X, Y and N in 0..15 with I + N <= 4096, executing the same DXYN
twice in a row (the word at PC + 2 is the same DXYN; I and memory are left alone by the first
draw) leaves every framebuffer cell equal to its value before the first draw. -/
theorem draw_twice (r r2 : Nat) (s : Chip8) (X Y N : Nat) (hX : X < 16) (hY : Y < 16)
    (hN : N < 16) (h : fetch s = some (0xD000 + 0x100 * X + 0x10 * Y + N))
    (hI : s.I + N ≤ 4096) :
    ∃ s1, single_cycle r s = some s1 ∧ s1.I = s.I ∧ s1.memory = s.memory ∧
      s1.pc = s.pc + 2 ∧
      (fetch s1 = some (0xD000 + 0x100 * X + 0x10 * Y + N) →
        ∃ s2, single_cycle r2 s1 = some s2 ∧
          ∀ c, c < 2048 → get_display_value s2 c = get_display_value s c) := by
  obtain ⟨s1, hs1, hinv1, _, hmem1, hI1, hpc1, _⟩ := draw_cycle r s X Y N hX hY hN h hI
  refine ⟨s1, hs1, hI1, hmem1, hpc1, ?_⟩
  intro h1
  obtain ⟨s2, hs2, hinv2, _⟩ := draw_cycle r2 s1 X Y N hX hY hN h1 (by rw [hI1]; exact hI)
  refine ⟨s2, hs2, ?_⟩
  have hV : upd s1.V 0xF 0 = upd s.V 0xF 0 := by
    apply upd_flag_clear
    by_cases hc : draw_coll s.memory s.I (upd s.V 0xF 0 X) (upd s.V 0xF 0 Y) s.display (8 * N)
    · exact Or.inl (hinv1.2.1 hc)
    · exact Or.inr (hinv1.2.2 hc)
  rw [hV, hmem1, hI1] at hinv2
  intro c hc
  simp only [get_display_value, hc, if_true, Option.some.injEq]
  by_cases hit : draw_hit s.memory s.I (upd s.V 0xF 0 X) (upd s.V 0xF 0 Y) (8 * N) c
  · have e2 : s2.display c = Int.xor (s1.display c) 1 := (hinv2.1 c).1 hit
    have e1 : s1.display c = Int.xor (s.display c) 1 := (hinv1.1 c).1 hit
    rw [e2, e1, int_xor_one_twice]
  · have e2 : s2.display c = s1.display c := (hinv2.1 c).2 hit
    have e1 : s1.display c = s.display c := (hinv1.1 c).2 hit
    rw [e2, e1]

/-- Witness for C5: a one-row sprite 0xFF on a blank screen gives eight cells set to 1 (and the
ninth still 0) after the first draw, and every cell is 0 again after the second. -/
theorem draw_twice_witness :
    (single_cycle 0 draw_twice_machine).map
        (fun s1 => (List.range 9).map s1.display) = some [1, 1, 1, 1, 1, 1, 1, 1, 0] ∧
    ∃ s1, single_cycle 0 draw_twice_machine = some s1 ∧
      ∃ s2, single_cycle 0 s1 = some s2 ∧
        ∀ c, c < 2048 → get_display_value s2 c = some 0 := by
  refine ⟨by decide, ?_⟩
  obtain ⟨s1, hs1, hI1, hmem1, hpc1, h2⟩ :=
    draw_twice 0 0 draw_twice_machine 0 0 1 (by decide) (by decide) (by decide) (by decide)
      (by decide)
  have hf : fetch s1 = some (0xD000 + 0x100 * 0 + 0x10 * 0 + 1) := by
    unfold fetch
    rw [hmem1, hpc1]
    decide
  obtain ⟨s2, hs2, hcells⟩ := h2 hf
  refine ⟨s1, hs1, s2, hs2, ?_⟩
  intro c hc
  rw [hcells c hc]
  simp [get_display_value, hc, draw_twice_machine, construct]

/-- C6 (collision flag): for X and Y in 0..14 and height N with I + N <= 4096, after one
`single_cycle` on DXYN the flag V[15] is 1 if and only if there are a row i < N and a column
j < 8 such that bit (7 - j) of memory[I + i] is set and framebuffer cell
`(V[X] + j + 64 * (V[Y] + i)) mod 2048` held 1 before the instruction; otherwise V[15] is 0,
whatever it held before; and the redraw flag is true afterwards. -/
theorem draw_collision_flag (r : Nat) (s : Chip8) (X Y N : Nat) (hX : X < 15) (hY : Y < 15)
    (hN : N < 16) (h : fetch s = some (0xD000 + 0x100 * X + 0x10 * Y + N))
    (hI : s.I + N ≤ 4096) :
    ∃ s', single_cycle r s = some s' ∧
      (s'.V 0xF = 1 ↔
        ∃ i j, i < N ∧ j < 8 ∧ (s.memory (s.I + i)).testBit (7 - j) = true ∧
          s.display ((s.V X + j + 64 * (s.V Y + i)) % 2048) = 1) ∧
      ((¬ ∃ i j, i < N ∧ j < 8 ∧ (s.memory (s.I + i)).testBit (7 - j) = true ∧
          s.display ((s.V X + j + 64 * (s.V Y + i)) % 2048) = 1) → s'.V 0xF = 0) ∧
      get_draw_flag s' = true := by
  obtain ⟨s', hs', hinv, hflag, _⟩ :=
    draw_cycle r s X Y N (by omega) (by omega) hN h hI
  have hx : upd s.V 0xF 0 X = s.V X := upd_other _ _ _ _ (by omega)
  have hy : upd s.V 0xF 0 Y = s.V Y := upd_other _ _ _ _ (by omega)
  rw [hx, hy] at hinv
  have hiff : draw_coll s.memory s.I (s.V X) (s.V Y) s.display (8 * N) ↔
      ∃ i j, i < N ∧ j < 8 ∧ (s.memory (s.I + i)).testBit (7 - j) = true ∧
        s.display ((s.V X + j + 64 * (s.V Y + i)) % 2048) = 1 := by
    constructor
    · rintro ⟨i, j, hj, hlt, hb, hc⟩
      refine ⟨i, j, by omega, hj, (mask_test_iff_testBit _ j hj).1 hb, ?_⟩
      rw [show s.V X + j + 64 * (s.V Y + i) = (s.V X + j) + ((s.V Y + i) * 64) by omega]
      exact hc
    · rintro ⟨i, j, hi, hj, hb, hc⟩
      refine ⟨i, j, hj, by omega, (mask_test_iff_testBit _ j hj).2 hb, ?_⟩
      rw [show s.V X + j + 64 * (s.V Y + i) = (s.V X + j) + ((s.V Y + i) * 64) by omega] at hc
      exact hc
  have hzero : ¬ draw_coll s.memory s.I (s.V X) (s.V Y) s.display (8 * N) → s'.V 0xF = 0 := by
    intro hn
    have e : s'.V = upd s.V 0xF 0 := hinv.2.2 hn
    rw [e, upd_same]
  have hone : draw_coll s.memory s.I (s.V X) (s.V Y) s.display (8 * N) → s'.V 0xF = 1 := by
    intro hc
    have e : s'.V = upd (upd s.V 0xF 0) 0xF 1 := hinv.2.1 hc
    rw [e, upd_same]
  refine ⟨s', hs', ?_, ?_, hflag⟩
  · rw [← hiff]
    constructor
    · intro h1
      by_contra hn
      have := hzero hn
      omega
    · exact hone
  · rw [← hiff]
    exact hzero

/-- Witness for C6: the word D011 with V[0] = V[1] = 0, the sprite byte 0x80 at memory[I] and
framebuffer cell 0 already holding 1, while V[15] held 7: the flag is 1 afterwards. -/
theorem draw_collision_flag_witness :
    ∃ s', single_cycle 0
        { machine_with (upd construct.V 0xF 7) 0xD0 0x11 with
          I := 0x300
          memory := upd (machine_with (upd construct.V 0xF 7) 0xD0 0x11).memory 0x300 0x80
          display := upd construct.display 0 1 } = some s' ∧
      s'.V 0xF = 1 ∧ get_draw_flag s' = true := by
  obtain ⟨s', h1, h2, _, h4⟩ :=
    draw_collision_flag 0
      { machine_with (upd construct.V 0xF 7) 0xD0 0x11 with
        I := 0x300
        memory := upd (machine_with (upd construct.V 0xF 7) 0xD0 0x11).memory 0x300 0x80
        display := upd construct.display 0 1 }
      0 1 1 (by decide) (by decide) (by decide) (by decide) (by decide)
  exact ⟨s', h1, h2.2 ⟨0, 0, by decide, by decide, by decide, by decide⟩, h4⟩


/-! ## Unknown instruction words (C11) -/

/-- An unknown word leaves the instruction switch without touching the machine. -/
theorem execute_unknown (r op : Nat) (s : Chip8) (h : unknown_word op) :
    execute r op s = some s := by
  rcases h with ⟨h12, h1, h2⟩ | ⟨h12, hv⟩ | ⟨h12, hv⟩ | ⟨h12, hv⟩
  · simp only [execute, h12, case_0]
    simp [h1, h2]
  · simp only [execute, h12, case_8]
    simp only [List.mem_cons, List.mem_singleton, List.not_mem_nil, or_false] at hv
    rcases hv with hv | hv | hv | hv | hv | hv | hv <;> simp [hv]
  · simp only [execute, h12, case_14]
    simp only [List.mem_cons, List.mem_singleton, List.not_mem_nil, or_false, not_or] at hv
    simp [hv.1, hv.2]
  · simp only [execute, h12, case_15]
    simp only [List.mem_cons, List.mem_singleton, List.not_mem_nil, or_false, not_or] at hv
    obtain ⟨h1, h2, h3, h4, h5, h6, h7, h8, h9⟩ := hv
    simp [h1, h2, h3, h4, h5, h6, h7, h8, h9]

/-- C11 (unknown instruction, as amended): for an unrecognised instruction word at PC one
`single_cycle` leaves PC, all registers, I, stack, stack pointer, memory, framebuffer, redraw
flag, keypad and sound timer unchanged; the delay timer is still decremented by one when it is
nonzero (and stays 0 when it is 0). -/
theorem unknown_word_cycle (r : Nat) (s : Chip8) (op : Nat) (hf : fetch s = some op)
    (hu : unknown_word op) :
    ∃ s', single_cycle r s = some s' ∧
      s'.pc = s.pc ∧ s'.V = s.V ∧ s'.I = s.I ∧ s'.stack = s.stack ∧ s'.sp = s.sp ∧
      s'.memory = s.memory ∧ s'.display = s.display ∧ s'.draw_flag = s.draw_flag ∧
      s'.keypad = s.keypad ∧ s'.sound_timer = s.sound_timer ∧
      (s.delay_timer = 0 → s'.delay_timer = 0) ∧
      (0 < s.delay_timer → s.delay_timer < 256 → s'.delay_timer = s.delay_timer - 1) := by
  refine ⟨timer_tick s, ?_, by simp, by simp, by simp, by simp, by simp, by simp, by simp,
    by simp, by simp, by simp, ?_, ?_⟩
  · rw [single_cycle_of_fetch r s _ hf, execute_unknown r op s hu]
    rfl
  · intro h0
    simp [timer_tick, h0]
  · intro _ hd
    exact timer_tick_delay_timer s hd

/-- Witness for C11 (amended): the unknown word 0000 at 0x200 on a machine whose delay timer
holds 5 leaves PC at 0x200 and the timer at 4. -/
theorem unknown_word_cycle_witness :
    ∃ s', single_cycle 0 { machine_with construct.V 0x00 0x00 with delay_timer := 5 } = some s' ∧
      s'.pc = 0x200 ∧ s'.delay_timer = 4 := by
  obtain ⟨s', h1, h2, _, _, _, _, _, _, _, _, _, _, h3⟩ :=
    unknown_word_cycle 0 { machine_with construct.V 0x00 0x00 with delay_timer := 5 } 0
      (by decide) (by decide)
  exact ⟨s', h1, h2, h3 (by decide) (by decide)⟩

/-- C11 (counterexample): the word 0000 is unrecognised, yet one `single_cycle` on a machine
whose delay timer holds 5 leaves the timer at 4, not 5. -/
theorem unknown_word_timer_changes :
    unknown_word 0x0000 ∧
    fetch { machine_with construct.V 0x00 0x00 with delay_timer := 5 } = some 0x0000 ∧
    (single_cycle 0 { machine_with construct.V 0x00 0x00 with delay_timer := 5 }).map
      (fun s' => s'.delay_timer) = some 4 ∧
    ¬ ((single_cycle 0 { machine_with construct.V 0x00 0x00 with delay_timer := 5 }).map
      (fun s' => s'.delay_timer) = some 5) := by
  refine ⟨by decide, by decide, by decide, by decide⟩

/-! ## Logic operations and shifts (C12, C13) -/

/-- Fields of an 8XYN instruction word. -/
theorem fields_8XYN (X Y n : Nat) (hX : X < 16) (hY : Y < 16) (hn : n < 16) :
    get_nibble (0x8000 + n + 0x100 * X + 0x10 * Y) 12 0xF000 = 8 ∧
    get_nibble (0x8000 + n + 0x100 * X + 0x10 * Y) 8 0x0F00 = X ∧
    get_nibble (0x8000 + n + 0x100 * X + 0x10 * Y) 4 0x00F0 = Y ∧
    get_nibble (0x8000 + n + 0x100 * X + 0x10 * Y) 0 0x000F = n := by
  rw [get_nibble_12, get_nibble_8, get_nibble_4, get_nibble_0]
  omega

/-- C12 (8XY1, 8XY2, 8XY3): for X and Y in 0..15 one `single_cycle` leaves V[15] = 0; when
X is not 15 it leaves V[X] equal to the bitwise OR, AND or XOR of the values V[X] and V[Y] held
before (for Y = 15 the old flag value is the operand); every register other than V[X] and
V[15] is unchanged and PC advances by 2. -/
theorem logic_ops_clear_flag (r : Nat) (s : Chip8) (X Y : Nat) (hX : X < 16) (hY : Y < 16) :
    (fetch s = some (0x8001 + 0x100 * X + 0x10 * Y) →
      ∃ s', single_cycle r s = some s' ∧ s'.V 0xF = 0 ∧
        (X ≠ 15 → s'.V X = s.V X ||| s.V Y) ∧
        (∀ j, j ≠ X → j ≠ 15 → s'.V j = s.V j) ∧ s'.pc = s.pc + 2) ∧
    (fetch s = some (0x8002 + 0x100 * X + 0x10 * Y) →
      ∃ s', single_cycle r s = some s' ∧ s'.V 0xF = 0 ∧
        (X ≠ 15 → s'.V X = s.V X &&& s.V Y) ∧
        (∀ j, j ≠ X → j ≠ 15 → s'.V j = s.V j) ∧ s'.pc = s.pc + 2) ∧
    (fetch s = some (0x8003 + 0x100 * X + 0x10 * Y) →
      ∃ s', single_cycle r s = some s' ∧ s'.V 0xF = 0 ∧
        (X ≠ 15 → s'.V X = s.V X ^^^ s.V Y) ∧
        (∀ j, j ≠ X → j ≠ 15 → s'.V j = s.V j) ∧ s'.pc = s.pc + 2) := by
  refine ⟨?_, ?_, ?_⟩
  · intro h
    have hpc := (fetch_some s _ h).1
    have hnext : (s.pc + 2) % 65536 = s.pc + 2 := by omega
    obtain ⟨e12, e8, e4, e0⟩ := fields_8XYN X Y 1 hX hY (by omega)
    rw [single_cycle_of_fetch r s _ h]
    simp only [execute, e12, case_8, e0, e8, e4]
    simp only [Nat.reduceEqDiff, if_false, if_true, Option.map_some', Option.some.injEq,
      exists_eq_left', timer_tick_V, timer_tick_pc, pc_next, hnext, upd_same, and_true,
      true_and]
    refine ⟨fun hx => ?_, fun j hj hj15 => ?_⟩
    · rw [upd_other _ _ _ _ hx, upd_same]
    · rw [upd_other _ _ _ _ hj15, upd_other _ _ _ _ hj]
  · intro h
    have hpc := (fetch_some s _ h).1
    have hnext : (s.pc + 2) % 65536 = s.pc + 2 := by omega
    obtain ⟨e12, e8, e4, e0⟩ := fields_8XYN X Y 2 hX hY (by omega)
    rw [single_cycle_of_fetch r s _ h]
    simp only [execute, e12, case_8, e0, e8, e4]
    simp only [Nat.reduceEqDiff, if_false, if_true, Option.map_some', Option.some.injEq,
      exists_eq_left', timer_tick_V, timer_tick_pc, pc_next, hnext, upd_same, and_true,
      true_and]
    refine ⟨fun hx => ?_, fun j hj hj15 => ?_⟩
    · rw [upd_other _ _ _ _ hx, upd_same]
    · rw [upd_other _ _ _ _ hj15, upd_other _ _ _ _ hj]
  · intro h
    have hpc := (fetch_some s _ h).1
    have hnext : (s.pc + 2) % 65536 = s.pc + 2 := by omega
    obtain ⟨e12, e8, e4, e0⟩ := fields_8XYN X Y 3 hX hY (by omega)
    rw [single_cycle_of_fetch r s _ h]
    simp only [execute, e12, case_8, e0, e8, e4]
    simp only [Nat.reduceEqDiff, if_false, if_true, Option.map_some', Option.some.injEq,
      exists_eq_left', timer_tick_V, timer_tick_pc, pc_next, hnext, upd_same, and_true,
      true_and]
    refine ⟨fun hx => ?_, fun j hj hj15 => ?_⟩
    · rw [upd_other _ _ _ _ hx, upd_same]
    · rw [upd_other _ _ _ _ hj15, upd_other _ _ _ _ hj]

/-- Witness for C12: with V[1] = 0x0C and V[15] = 0x0A the words 81F1, 81F2, 81F3 (Y = 15) give
V[1] = 0x0E, 0x08, 0x06 and V[15] = 0. -/
theorem logic_ops_clear_flag_witness :
    (∃ s', single_cycle 0 (machine_with (upd (upd construct.V 1 0x0C) 0xF 0x0A) 0x81 0xF1) =
        some s' ∧ s'.V 0xF = 0 ∧ s'.V 1 = 0x0E ∧ s'.pc = 0x202) ∧
    (∃ s', single_cycle 0 (machine_with (upd (upd construct.V 1 0x0C) 0xF 0x0A) 0x81 0xF2) =
        some s' ∧ s'.V 0xF = 0 ∧ s'.V 1 = 0x08 ∧ s'.pc = 0x202) ∧
    (∃ s', single_cycle 0 (machine_with (upd (upd construct.V 1 0x0C) 0xF 0x0A) 0x81 0xF3) =
        some s' ∧ s'.V 0xF = 0 ∧ s'.V 1 = 0x06 ∧ s'.pc = 0x202) := by
  refine ⟨?_, ?_, ?_⟩
  · obtain ⟨s', h1, h2, h3, _, h5⟩ :=
      (logic_ops_clear_flag 0 (machine_with (upd (upd construct.V 1 0x0C) 0xF 0x0A) 0x81 0xF1)
        1 15 (by decide) (by decide)).1 (by decide)
    exact ⟨s', h1, h2, (h3 (by decide)).trans (by decide), h5⟩
  · obtain ⟨s', h1, h2, h3, _, h5⟩ :=
      (logic_ops_clear_flag 0 (machine_with (upd (upd construct.V 1 0x0C) 0xF 0x0A) 0x81 0xF2)
        1 15 (by decide) (by decide)).2.1 (by decide)
    exact ⟨s', h1, h2, (h3 (by decide)).trans (by decide), h5⟩
  · obtain ⟨s', h1, h2, h3, _, h5⟩ :=
      (logic_ops_clear_flag 0 (machine_with (upd (upd construct.V 1 0x0C) 0xF 0x0A) 0x81 0xF3)
        1 15 (by decide) (by decide)).2.2 (by decide)
    exact ⟨s', h1, h2, (h3 (by decide)).trans (by decide), h5⟩

/-- A second store to the same index replaces the first. -/
theorem upd_upd {α : Type} (a : Nat → α) (i : Nat) (u w : α) :
    upd (upd a i u) i w = upd a i w := by
  funext j
  by_cases hj : j = i <;> simp [upd, hj]

/-- C13 (8XY6, 8XYE): for X in 0..14 and v = V[X] (a `uint8_t` value), 8XY6 leaves
V[X] = v div 2 and V[15] = v mod 2, so v = 2 * V[X] + V[15]; 8XYE leaves V[X] = (2 * v) mod 256
and V[15] = v div 128, so 2 * v = 256 * V[15] + V[X]. In both cases the register file
afterwards is the old one with only V[15] and V[X] replaced, by values that depend on v alone:
V[Y] is not read. -/
theorem shift_ops (r : Nat) (s : Chip8) (X Y : Nat) (hX : X < 15) (hY : Y < 16)
    (hv : s.V X < 256) :
    (fetch s = some (0x8006 + 0x100 * X + 0x10 * Y) →
      ∃ s', single_cycle r s = some s' ∧
        s'.V X = s.V X / 2 ∧ s'.V 0xF = s.V X % 2 ∧ s.V X = 2 * s'.V X + s'.V 0xF ∧
        s'.V = upd (upd s.V 0xF (s.V X % 2)) X (s.V X / 2)) ∧
    (fetch s = some (0x800E + 0x100 * X + 0x10 * Y) →
      ∃ s', single_cycle r s = some s' ∧
        s'.V X = (2 * s.V X) % 256 ∧ s'.V 0xF = s.V X / 128 ∧
        2 * s.V X = 256 * s'.V 0xF + s'.V X ∧
        s'.V = upd (upd s.V 0xF (s.V X / 128)) X ((2 * s.V X) % 256)) := by
  have hX15 : X ≠ 15 := by omega
  have hlow : s.V X &&& 1 = s.V X % 2 := Nat.and_one_is_mod _
  have hshr : s.V X >>> 1 = s.V X / 2 := by rw [Nat.shiftRight_eq_div_pow]
  have hshl : s.V X <<< 1 = 2 * s.V X := by rw [Nat.shiftLeft_eq]; omega
  have hhigh : s.V X >>> 7 = s.V X / 128 := by rw [Nat.shiftRight_eq_div_pow]
  have hm2 : s.V X / 2 % 256 = s.V X / 2 := by omega
  have hm128 : s.V X / 128 % 256 = s.V X / 128 := by omega
  refine ⟨?_, ?_⟩
  · intro h
    obtain ⟨e12, e8, e4, e0⟩ := fields_8XYN X Y 6 (by omega) hY (by omega)
    rw [single_cycle_of_fetch r s _ h]
    simp only [execute, e12, case_8, e0, e8, e4]
    simp only [Nat.reduceEqDiff, if_false, if_true, Option.map_some', Option.some.injEq,
      exists_eq_left', timer_tick_V, pc_next, upd_same, upd_other _ _ _ _ hX15,
      upd_other _ _ _ _ hX15.symm, upd_upd, hlow, hshr, hm2, and_true, true_and]
    omega
  · intro h
    obtain ⟨e12, e8, e4, e0⟩ := fields_8XYN X Y 0xE (by omega) hY (by omega)
    rw [single_cycle_of_fetch r s _ h]
    simp only [execute, e12, case_8, e0, e8, e4]
    simp only [Nat.reduceEqDiff, if_false, if_true, Option.map_some', Option.some.injEq,
      exists_eq_left', timer_tick_V, pc_next, upd_same, upd_other _ _ _ _ hX15,
      upd_other _ _ _ _ hX15.symm, upd_upd, hshl, hhigh, hm128, Nat.mod_mod, and_true,
      true_and]
    omega

/-- Witness for C13: V[2] = 0x85 gives V[2] = 0x42, V[15] = 1 under 8236 and V[2] = 0x0A,
V[15] = 1 under 823E. -/
theorem shift_ops_witness :
    (∃ s', single_cycle 0 (machine_with (upd construct.V 2 0x85) 0x82 0x36) = some s' ∧
      s'.V 2 = 0x42 ∧ s'.V 0xF = 1) ∧
    (∃ s', single_cycle 0 (machine_with (upd construct.V 2 0x85) 0x82 0x3E) = some s' ∧
      s'.V 2 = 0x0A ∧ s'.V 0xF = 1) := by
  refine ⟨?_, ?_⟩
  · obtain ⟨s', h1, h2, h3, _⟩ :=
      (shift_ops 0 (machine_with (upd construct.V 2 0x85) 0x82 0x36) 2 3
        (by decide) (by decide) (by decide)).1 (by decide)
    exact ⟨s', h1, h2.trans (by decide), h3.trans (by decide)⟩
  · obtain ⟨s', h1, h2, h3, _⟩ :=
      (shift_ops 0 (machine_with (upd construct.V 2 0x85) 0x82 0x3E) 2 3
        (by decide) (by decide) (by decide)).2 (by decide)
    exact ⟨s', h1, h2.trans (by decide), h3.trans (by decide)⟩

/-! ## Register dump and load, index add, key wait (C14, C15, C16) -/

/-- The loop of FX55 stays in bounds when `I + n <= 4096`, stores V[i] at `I + i` for every
`i < n` and leaves every other byte alone. -/
theorem reg_dump_spec (V : Nat → Nat) (I : Nat) (m : Nat → Nat) :
    ∀ n, I + n ≤ 4096 →
      ∃ m', reg_dump V I n m = some m' ∧
        (∀ i, i < n → m' (I + i) = V i) ∧
        (∀ a, a < I ∨ I + n ≤ a → m' a = m a) := by
  intro n
  induction n with
  | zero =>
    intro _
    exact ⟨m, rfl, fun i hi => absurd hi (Nat.not_lt_zero i), fun _ _ => rfl⟩
  | succ n ih =>
    intro hn
    obtain ⟨m1, hm1, hin, hout⟩ := ih (by omega)
    have hb : I + n < 4096 := by omega
    refine ⟨upd m1 (I + n) (V n), by simp [reg_dump, hm1, mem_write, hb], ?_, ?_⟩
    · intro i hi
      by_cases hlast : i = n
      · subst hlast; exact upd_same _ _ _
      · rw [upd_other _ _ _ _ (by omega)]
        exact hin i (by omega)
    · intro a ha
      rw [upd_other _ _ _ _ (by omega)]
      exact hout a (by omega)

/-- The loop of FX65 stays in bounds when `I + n <= 4096`, loads V[i] from `I + i` for every
`i < n` and leaves every other register alone. -/
theorem reg_load_spec (mem : Nat → Nat) (I : Nat) (V : Nat → Nat) :
    ∀ n, I + n ≤ 4096 →
      ∃ V', reg_load mem I n V = some V' ∧
        (∀ i, i < n → V' i = mem (I + i)) ∧
        (∀ j, n ≤ j → V' j = V j) := by
  intro n
  induction n with
  | zero =>
    intro _
    exact ⟨V, rfl, fun i hi => absurd hi (Nat.not_lt_zero i), fun _ _ => rfl⟩
  | succ n ih =>
    intro hn
    obtain ⟨V1, hV1, hin, hout⟩ := ih (by omega)
    have hb : I + n < 4096 := by omega
    refine ⟨upd V1 n (mem (I + n)), by simp [reg_load, hV1, mem_read, hb], ?_, ?_⟩
    · intro i hi
      by_cases hlast : i = n
      · subst hlast; exact upd_same _ _ _
      · rw [upd_other _ _ _ _ hlast]
        exact hin i (by omega)
    · intro j hj
      rw [upd_other _ _ _ _ (by omega)]
      exact hout j (by omega)

/-- Fields of an FXNN instruction word. -/
theorem fields_FXNN (X NN : Nat) (hX : X < 16) (hNN : NN < 256) :
    get_nibble (0xF000 + NN + 0x100 * X) 12 0xF000 = 15 ∧
    get_nibble (0xF000 + NN + 0x100 * X) 8 0x0F00 = X ∧
    get_nibble (0xF000 + NN + 0x100 * X) 0 0x00FF = NN := by
  rw [get_nibble_12, get_nibble_8, get_nibble_0_byte]
  omega

/-- One cycle on FX65 with the source bytes inside memory. -/
theorem load_cycle (r : Nat) (s : Chip8) (X : Nat) (hX : X < 16)
    (h : fetch s = some (0xF065 + 0x100 * X)) (hI : s.I + X ≤ 4095) :
    ∃ s', single_cycle r s = some s' ∧
      (∀ i, i ≤ X → s'.V i = s.memory (s.I + i)) ∧
      (∀ j, X < j → s'.V j = s.V j) ∧
      s'.memory = s.memory ∧ s'.I = s.I + X + 1 := by
  obtain ⟨e12, e8, e0⟩ := fields_FXNN X 0x65 hX (by omega)
  obtain ⟨V1, hV1, hin, hout⟩ := reg_load_spec s.memory s.I s.V (X + 1) (by omega)
  have hI1 : (s.I + X + 1) % 65536 = s.I + X + 1 := by omega
  rw [single_cycle_of_fetch r s _ h]
  simp only [execute, e12, case_15, e0, e8]
  simp only [Nat.reduceEqDiff, if_false, if_true, hV1, Option.map_some', Option.some.injEq,
    exists_eq_left', timer_tick_V, timer_tick_memory, timer_tick_I, pc_next, hI1, and_true]
  exact ⟨fun i hi => hin i (by omega), fun j hj => hout j (by omega)⟩

/-- C14 (FX55, FX65): for X in 0..15 and I + X <= 4095, FX55 leaves memory[I + i] = V[i] for
every i <= X, every other memory byte and every register unchanged, and I = I + X + 1; FX65
leaves V[i] = memory[I + i] for every i <= X, every V[j] with j > X and all memory unchanged,
and I = I + X + 1; and a load executed after the dump, from the same starting index and with
the dumped bytes still in place, restores V[0..X] whatever the registers hold by then. -/
theorem reg_dump_load (r : Nat) (s : Chip8) (X : Nat) (hX : X < 16) (hI : s.I + X ≤ 4095) :
    (fetch s = some (0xF055 + 0x100 * X) →
      ∃ s', single_cycle r s = some s' ∧
        (∀ i, i ≤ X → s'.memory (s.I + i) = s.V i) ∧
        (∀ a, a < s.I ∨ s.I + X < a → s'.memory a = s.memory a) ∧
        s'.V = s.V ∧ s'.I = s.I + X + 1 ∧
        (∀ (r2 : Nat) (t : Chip8), fetch t = some (0xF065 + 0x100 * X) → t.I = s.I →
          (∀ i, i ≤ X → t.memory (s.I + i) = s'.memory (s.I + i)) →
          ∃ t', single_cycle r2 t = some t' ∧ ∀ i, i ≤ X → t'.V i = s.V i)) ∧
    (fetch s = some (0xF065 + 0x100 * X) →
      ∃ s', single_cycle r s = some s' ∧
        (∀ i, i ≤ X → s'.V i = s.memory (s.I + i)) ∧
        (∀ j, X < j → s'.V j = s.V j) ∧
        s'.memory = s.memory ∧ s'.I = s.I + X + 1) := by
  refine ⟨?_, fun h => load_cycle r s X hX h hI⟩
  intro h
  obtain ⟨e12, e8, e0⟩ := fields_FXNN X 0x55 hX (by omega)
  obtain ⟨m1, hm1, hin, hout⟩ := reg_dump_spec s.V s.I s.memory (X + 1) (by omega)
  have hI1 : (s.I + X + 1) % 65536 = s.I + X + 1 := by omega
  rw [single_cycle_of_fetch r s _ h]
  simp only [execute, e12, case_15, e0, e8]
  simp only [Nat.reduceEqDiff, if_false, if_true, hm1, Option.map_some', Option.some.injEq,
    exists_eq_left', timer_tick_V, timer_tick_memory, timer_tick_I, pc_next, hI1, and_true,
    true_and]
  refine ⟨fun i hi => hin i (by omega), fun a ha => hout a (by omega), ?_⟩
  intro r2 t ht htI htm
  obtain ⟨t', ht', hload, _⟩ := load_cycle r2 t X hX ht (by omega)
  refine ⟨t', ht', fun i hi => ?_⟩
  rw [hload i hi, htI, htm i hi]
  exact hin i (by omega)

/-- Witness for C14: F255 with I = 0x300 and V[0..2] = 7, 8, 9 writes 7, 8, 9 to
memory[0x300..0x302] and leaves I = 0x303; F265 with memory[0x300] = 0x41 loads V[0] = 0x41. -/
theorem reg_dump_load_witness :
    (∃ s', single_cycle 0
        { machine_with (upd (upd (upd construct.V 0 7) 1 8) 2 9) 0xF2 0x55 with I := 0x300 } =
          some s' ∧
      s'.memory 0x300 = 7 ∧ s'.memory 0x301 = 8 ∧ s'.memory 0x302 = 9 ∧ s'.I = 0x303) ∧
    (∃ s', single_cycle 0
        { machine_with construct.V 0xF2 0x65 with
          I := 0x300
          memory := upd (machine_with construct.V 0xF2 0x65).memory 0x300 0x41 } = some s' ∧
      s'.V 0 = 0x41 ∧ s'.I = 0x303) := by
  refine ⟨?_, ?_⟩
  · obtain ⟨s', h1, h2, _, _, h5, _⟩ :=
      (reg_dump_load 0
        { machine_with (upd (upd (upd construct.V 0 7) 1 8) 2 9) 0xF2 0x55 with I := 0x300 }
        2 (by decide) (by decide)).1 (by decide)
    exact ⟨s', h1, h2 0 (by decide), h2 1 (by decide), h2 2 (by decide), h5⟩
  · obtain ⟨s', h1, h2, _, _, h5⟩ :=
      (reg_dump_load 0
        { machine_with construct.V 0xF2 0x65 with
          I := 0x300
          memory := upd (machine_with construct.V 0xF2 0x65).memory 0x300 0x41 }
        2 (by decide) (by decide)).2 (by decide)
    exact ⟨s', h1, (h2 0 (by decide)).trans (by decide), h5⟩

/-- FX1E away from the flag register: for X in 0..14 the index register receives
`(i + v) mod 65536` and V[15] is 1 if `i + v > 4095` and 0 otherwise. -/
theorem index_add_FX1E (r : Nat) (s : Chip8) (X : Nat) (hX : X < 15)
    (h : fetch s = some (0xF01E + 0x100 * X)) :
    ∃ s', single_cycle r s = some s' ∧
      s'.I = (s.I + s.V X) % 65536 ∧
      s'.V 0xF = (if s.I + s.V X > 4095 then 1 else 0) := by
  obtain ⟨e12, e8, e0⟩ := fields_FXNN X 0x1E (by omega) (by omega)
  have hX15 : X ≠ 15 := by omega
  rw [single_cycle_of_fetch r s _ h]
  simp only [execute, e12, case_15, e0, e8]
  simp [pc_next, upd_other _ _ _ _ hX15]

/-- FX1E with the flag register as operand (X = 15): V[15] is overwritten with the overflow
flag before `I += V[reg]` reads it, so the index register receives `i + flag`, not `i + v`. -/
theorem index_add_FX1E_flag (r : Nat) (s : Chip8)
    (h : fetch s = some (0xF01E + 0x100 * 15)) :
    ∃ s', single_cycle r s = some s' ∧
      s'.I = (s.I + (if s.I + s.V 0xF > 4095 then 1 else 0)) % 65536 ∧
      s'.V 0xF = (if s.I + s.V 0xF > 4095 then 1 else 0) := by
  obtain ⟨e12, e8, e0⟩ := fields_FXNN 15 0x1E (by omega) (by omega)
  rw [single_cycle_of_fetch r s _ h]
  simp only [execute, e12, case_15, e0, e8]
  simp [pc_next]

/-- C15 (FX1E, failing input): on the machine executing FF1E (X = 15) with I = 0x100 and
V[15] = 0x20, one `single_cycle` leaves I = 0x100 and V[15] = 0, whereas
`(0x100 + 0x20) mod 65536 = 0x120`. -/
theorem index_add_FX1E_flag_operand :
    fetch { machine_with (upd construct.V 0xF 0x20) 0xFF 0x1E with I := 0x100 } = some 0xFF1E ∧
    ({ machine_with (upd construct.V 0xF 0x20) 0xFF 0x1E with I := 0x100 } : Chip8).V 0xF
      = 0x20 ∧
    (single_cycle 0 { machine_with (upd construct.V 0xF 0x20) 0xFF 0x1E with I := 0x100 }).map
      (fun s => (s.I, s.V 0xF)) = some (0x100, 0) ∧
    (0x100 + 0x20) % 65536 = 0x120 := by
  refine ⟨by decide, by decide, by decide, by decide⟩

/-- The scan of FX0A over the first `n` keys: with no key down nothing changes; otherwise the
register receives the largest index below `n` whose key is down. -/
theorem key_scan_spec (keypad : Nat → Int) (reg : Nat) (V : Nat → Nat) :
    ∀ n, n ≤ 16 →
      ((∀ i, i < n → keypad i = 0) → key_scan keypad reg n (false, V) = (false, V)) ∧
      ((∃ i, i < n ∧ keypad i ≠ 0) →
        ∃ k, k < n ∧ keypad k ≠ 0 ∧ (∀ j, j < n → keypad j ≠ 0 → j ≤ k) ∧
          key_scan keypad reg n (false, V) = (true, upd V reg k)) := by
  intro n
  induction n with
  | zero =>
    intro _
    refine ⟨fun _ => rfl, ?_⟩
    rintro ⟨i, hi, _⟩
    omega
  | succ n ih =>
    intro hn
    obtain ⟨ih0, ih1⟩ := ih (by omega)
    have hmod : n % 256 = n := by omega
    constructor
    · intro hall
      have hkn : keypad n = 0 := hall n (by omega)
      simp only [key_scan, hkn, ne_eq, not_true_eq_false, if_false]
      exact ih0 (fun i hi => hall i (by omega))
    · intro hsome
      by_cases hkn : keypad n = 0
      · have hex : ∃ i, i < n ∧ keypad i ≠ 0 := by
          by_contra hno
          have hall : ∀ i, i < n + 1 → keypad i = 0 := by
            intro i hi
            by_cases hin : i = n
            · subst hin; exact hkn
            · by_contra hne
              exact hno ⟨i, by omega, hne⟩
          obtain ⟨i, hi, hne⟩ := hsome
          exact hne (hall i hi)
        obtain ⟨k, hk, hkne, hmax, hst⟩ := ih1 hex
        refine ⟨k, by omega, hkne, ?_, ?_⟩
        · intro j hj hjne
          by_cases hjn : j = n
          · subst hjn; exact absurd hkn hjne
          · exact hmax j (by omega) hjne
        · simp only [key_scan, hkn, ne_eq, not_true_eq_false, if_false]
          exact hst
      · refine ⟨n, by omega, hkn, fun j hj _ => by omega, ?_⟩
        simp only [key_scan, ne_eq, hkn, not_false_eq_true, if_true, hmod]
        by_cases hex : ∃ i, i < n ∧ keypad i ≠ 0
        · obtain ⟨k, _, _, _, hst⟩ := ih1 hex
          rw [hst, upd_upd]
        · have hall : ∀ i, i < n → keypad i = 0 := by
            intro i hi
            by_contra hne
            exact hex ⟨i, hi, hne⟩
          rw [ih0 hall]

/-- C16 (FX0A): if at least one of the 16 keypad entries is non-zero, one `single_cycle` sets
V[X] to the largest index k in 0..15 whose keypad entry is non-zero and advances PC by 2; if
no keypad entry is non-zero, PC, every register, I, memory, stack and framebuffer are
unchanged, so the same instruction is fetched again on the next cycle. -/
theorem wait_for_key (r : Nat) (s : Chip8) (X : Nat) (hX : X < 16)
    (h : fetch s = some (0xF00A + 0x100 * X)) :
    ((∃ i, i < 16 ∧ s.keypad i ≠ 0) →
      ∃ s' k, single_cycle r s = some s' ∧ k < 16 ∧ s.keypad k ≠ 0 ∧
        (∀ j, j < 16 → s.keypad j ≠ 0 → j ≤ k) ∧
        s'.V X = k ∧ (∀ j, j ≠ X → s'.V j = s.V j) ∧ s'.pc = s.pc + 2) ∧
    ((∀ i, i < 16 → s.keypad i = 0) →
      ∃ s', single_cycle r s = some s' ∧ s'.pc = s.pc ∧ s'.V = s.V ∧ s'.I = s.I ∧
        s'.memory = s.memory ∧ s'.stack = s.stack ∧ s'.sp = s.sp ∧
        s'.display = s.display ∧ fetch s' = some (0xF00A + 0x100 * X)) := by
  have hpc := (fetch_some s _ h).1
  have hnext : (s.pc + 2) % 65536 = s.pc + 2 := by omega
  obtain ⟨e12, e8, e0⟩ := fields_FXNN X 0x0A hX (by omega)
  obtain ⟨h0, h1⟩ := key_scan_spec s.keypad X s.V 16 (le_refl 16)
  constructor
  · intro hex
    obtain ⟨k, hk, hkne, hmax, hst⟩ := h1 hex
    refine ⟨timer_tick (pc_next { s with V := upd s.V X k }), k, ?_, hk, hkne, hmax, ?_, ?_, ?_⟩
    · rw [single_cycle_of_fetch r s _ h]
      simp only [execute, e12, case_15, e0, e8]
      simp [hst]
    · simp [pc_next]
    · intro j hj
      simp [pc_next, upd_other _ _ _ _ hj]
    · simp [pc_next, hnext]
  · intro hall
    have hst := h0 hall
    refine ⟨timer_tick { s with V := s.V }, ?_, by simp, by simp, by simp, by simp, by simp,
      by simp, by simp, ?_⟩
    · rw [single_cycle_of_fetch r s _ h]
      simp only [execute, e12, case_15, e0, e8]
      simp [hst]
    · rw [← h]
      simp [fetch]

/-- Witness for C16: with keys 3 and 9 down the word F50A sets V[5] = 9 and moves PC to 0x202;
with no key down PC stays at 0x200. -/
theorem wait_for_key_witness :
    (∃ s', single_cycle 0
        { machine_with construct.V 0xF5 0x0A with
          keypad := upd (upd construct.keypad 3 1) 9 1 } = some s' ∧
      s'.V 5 = 9 ∧ s'.pc = 0x202) ∧
    (∃ s', single_cycle 0 (machine_with construct.V 0xF5 0x0A) = some s' ∧ s'.pc = 0x200) := by
  refine ⟨?_, ?_⟩
  · obtain ⟨s', k, h1, hk, hkne, hmax, hV, _, hpc⟩ :=
      (wait_for_key 0
        { machine_with construct.V 0xF5 0x0A with
          keypad := upd (upd construct.keypad 3 1) 9 1 } 5 (by decide) (by decide)).1
        ⟨9, by decide, by decide⟩
    have h9 : 9 ≤ k := hmax 9 (by decide) (by decide)
    have hk9 : k = 9 := by
      have hzero : ∀ j, 9 < j →
          (upd (upd construct.keypad 3 1) 9 1 : Nat → Int) j = 0 := by
        intro j hj
        rw [upd_other _ _ _ _ (by omega), upd_other _ _ _ _ (by omega)]
        rfl
      by_contra hne
      exact hkne (hzero k (by omega))
    exact ⟨s', h1, hV.trans hk9, hpc⟩
  · obtain ⟨s', h1, hpc, _⟩ :=
      (wait_for_key 0 (machine_with construct.V 0xF5 0x0A) 5 (by decide) (by decide)).2
        (fun i _ => rfl)
    exact ⟨s', h1, hpc⟩

/-! ## Runs from a freshly constructed machine -/

theorem cycles_reach (G : Chip8 → Prop) (hG : ∀ s, G s) (rs : List Nat) :
    ∀ s s', Reach G s → cycles rs s = some s' → Reach G s' := by
  induction rs with
  | nil =>
    intro s s' hs h
    cases h
    exact hs
  | cons r rs ih =>
    intro s s' hs h
    simp only [cycles, Option.bind_eq_some] at h
    obtain ⟨s1, h1, h2⟩ := h
    exact ih s1 s' (Reach.cycle r s s1 hs (hG s) h1) h2

/-- The result of `run_rom` is a reachable state. -/
theorem run_rom_reachable (rom rs : List Nat) (s : Chip8) (h : run_rom rom rs = some s) :
    Reachable s := by
  simp only [run_rom, Option.bind_eq_some] at h
  obtain ⟨p, hp, hc⟩ := h
  have hload : load_rom (some rom) construct = some (true, p.2) := by
    rw [hp]
    simp only [load_rom, Option.map_eq_some'] at hp
    obtain ⟨m, _, rfl⟩ := hp
    rfl
  exact cycles_reach _ (fun _ => trivial) rs p.2 s (Reach.load rom p.2 hload) hc

/-- Loading changes `memory` only: every other member is as the constructor left it. -/
theorem load_rom_members (rom : List Nat) (s : Chip8)
    (h : load_rom (some rom) construct = some (true, s)) :
    s.V = construct.V ∧ s.I = construct.I ∧ s.pc = construct.pc ∧ s.sp = construct.sp ∧
      s.stack = construct.stack ∧ s.delay_timer = construct.delay_timer ∧
      s.display = construct.display ∧ s.keypad = construct.keypad ∧
      ∃ m, load_loop rom 0x200 construct.memory = some m ∧ s.memory = m := by
  simp only [load_rom, Option.map_eq_some', Prod.mk.injEq, true_and] at h
  obtain ⟨m, hm, rfl⟩ := h
  exact ⟨rfl, rfl, rfl, rfl, rfl, rfl, rfl, rfl, m, hm, rfl⟩

/-! ## The font area (C17) -/

theorem mem_write_other (m m' : Nat → Nat) (a v : Nat) (h : mem_write m a v = some m')
    (b : Nat) (hb : b ≠ a) : m' b = m b := by
  unfold mem_write at h
  split at h
  · cases h; exact upd_other _ _ _ _ hb
  · cases h

/-- The loop of FX55 writes at `I` and above only. -/
theorem reg_dump_below (V : Nat → Nat) (I : Nat) (m : Nat → Nat) :
    ∀ n m', reg_dump V I n m = some m' → ∀ a, a < I → m' a = m a := by
  intro n
  induction n with
  | zero =>
    intro m' h a _
    cases h
    rfl
  | succ n ih =>
    intro m' h a ha
    simp only [reg_dump, Option.bind_eq_some] at h
    obtain ⟨m1, h1, h2⟩ := h
    rw [mem_write_other m1 m' _ _ h2 a (by omega)]
    exact ih m1 h1 a ha

/-- The read loop of `load_rom` writes at its start index and above only. -/
theorem load_loop_below (bytes : List Nat) :
    ∀ i m m', load_loop bytes i m = some m' → ∀ a, a < i → m' a = m a := by
  induction bytes with
  | nil =>
    intro i m m' h a _
    cases h
    rfl
  | cons c rest ih =>
    intro i m m' h a ha
    simp only [load_loop, Option.bind_eq_some] at h
    obtain ⟨m1, h1, h2⟩ := h
    rw [ih (i + 1) m1 m' h2 a (by omega)]
    exact mem_write_other m m1 _ _ h1 a (by omega)

theorem case_0_font (op : Nat) (s : Chip8) :
    ∀ s', case_0 op s = some s' → ∀ a, a < 80 → s'.memory a = s.memory a := by
  unfold case_0
  dsimp only
  repeat' first
    | exact opt_none
    | exact opt_some (fun _ _ => rfl)
    | (apply opt_ite <;> intro _)

theorem case_8_font (op : Nat) (s : Chip8) :
    ∀ s', case_8 op s = some s' → ∀ a, a < 80 → s'.memory a = s.memory a := by
  unfold case_8
  dsimp only
  repeat' first
    | exact opt_none
    | exact opt_some (fun _ _ => rfl)
    | (apply opt_ite <;> intro _)

theorem case_13_font (op : Nat) (s : Chip8) :
    ∀ s', case_13 op s = some s' → ∀ a, a < 80 → s'.memory a = s.memory a := by
  unfold case_13
  dsimp only
  apply opt_map
  intro _ _ _ _
  rfl

theorem case_14_font (op : Nat) (s : Chip8) :
    ∀ s', case_14 op s = some s' → ∀ a, a < 80 → s'.memory a = s.memory a := by
  unfold case_14
  dsimp only
  repeat' first
    | exact opt_none
    | exact opt_some (fun _ _ => rfl)
    | exact opt_some_ite (fun _ _ _ => rfl) (fun _ _ _ => rfl)
    | (apply opt_ite <;> intro _)

theorem case_15_font (op : Nat) (s : Chip8)
    (hg : get_nibble op 0 0x00FF = 0x33 ∨ get_nibble op 0 0x00FF = 0x55 → 80 ≤ s.I) :
    ∀ s', case_15 op s = some s' → ∀ a, a < 80 → s'.memory a = s.memory a := by
  unfold case_15
  dsimp only
  repeat' first
    | exact opt_none
    | exact opt_some (fun _ _ => rfl)
    | exact opt_some_ite (fun _ _ _ => rfl) (fun _ _ _ => rfl)
    | (apply opt_ite <;> intro _)
  · rename_i h33
    have hI := hg (Or.inl h33)
    apply opt_bind; intro m1 h1
    apply opt_bind; intro m2 h2
    apply opt_bind; intro m3 h3
    apply opt_some
    intro a ha
    show m3 a = s.memory a
    rw [mem_write_other m2 m3 _ _ h3 a (by omega), mem_write_other m1 m2 _ _ h2 a (by omega),
      mem_write_other s.memory m1 _ _ h1 a (by omega)]
  · rename_i h55
    have hI := hg (Or.inr h55)
    apply opt_map
    intro m hm a ha
    exact reg_dump_below s.V s.I s.memory _ m hm a (by omega)
  · apply opt_map
    intro _ _ _ _
    rfl

/-- Bytes 0..79 survive a pass through the instruction switch unless it is FX33 or FX55 with
the index register below 80. -/
theorem execute_font (r op : Nat) (s : Chip8)
    (hg : get_nibble op 12 0xF000 = 15 →
      get_nibble op 0 0x00FF = 0x33 ∨ get_nibble op 0 0x00FF = 0x55 → 80 ≤ s.I) :
    ∀ s', execute r op s = some s' → ∀ a, a < 80 → s'.memory a = s.memory a := by
  unfold execute
  dsimp only
  repeat' first
    | exact opt_none
    | exact opt_some (fun _ _ => rfl)
    | exact opt_some_ite (fun _ _ _ => rfl) (fun _ _ _ => rfl)
    | exact case_0_font _ _
    | exact case_8_font _ _
    | exact case_13_font _ _
    | exact case_14_font _ _
    | exact case_15_font _ _ (hg (by assumption))
    | (apply opt_ite <;> intro _)

theorem single_cycle_font (r : Nat) (s s' : Chip8) (hg : ¬ stores_into_font s)
    (h : single_cycle r s = some s') : ∀ a, a < 80 → s'.memory a = s.memory a := by
  simp only [single_cycle, Option.bind_eq_some, Option.map_eq_some'] at h
  obtain ⟨op, hf, s1, h1, rfl⟩ := h
  rw [timer_tick_memory]
  refine execute_font r op s (fun h15 hw => ?_) s1 h1
  by_contra hlt
  simp only [stores_into_font, hf] at hg
  exact hg ⟨h15, hw, by omega⟩

/-- C17 (font area, as amended): memory bytes 0..79 still equal the built-in font in every
state reachable from a freshly constructed machine by loading any program and executing cycles
with every array access in bounds, provided no FX33 or FX55 is executed while the index
register is below 80. -/
theorem font_preserved (s : Chip8) (h : Reach (fun t => ¬ stores_into_font t) s) :
    ∀ i, i < 80 → s.memory i = chip8_fontset.getD i 0 := by
  induction h with
  | load rom s hload =>
    obtain ⟨_, _, _, _, _, _, _, _, m, hm, hmem⟩ := load_rom_members rom s hload
    intro i hi
    rw [hmem, load_loop_below rom 0x200 construct.memory m hm i (by omega)]
    simp [construct, hi]
  | cycle r s s' _ hg hstep ih =>
    intro i hi
    rw [single_cycle_font r s s' hg hstep i hi]
    exact ih i hi
  | key index val s s' _ hkey ih =>
    unfold set_keypad_value at hkey
    split at hkey
    · cases hkey; exact ih
    · cases hkey
  | flag b s _ ih => exact ih

/-- Witness for C17 (amended): the program A300 F033 (I = 0x300, then BCD store) leaves the
first font byte 0xF0 in place after two cycles. -/
theorem font_preserved_witness :
    ∃ s, run_rom [0xA3, 0x00, 0xF0, 0x33] [0, 0] = some s ∧ s.memory 0 = 0xF0 := by
  have hl : load_rom (some [0xA3, 0x00, 0xF0, 0x33]) construct =
      some (true, { construct with
        memory := upd (upd (upd (upd construct.memory 0x200 (0xA3 % 256)) 0x201 (0x00 % 256))
          0x202 (0xF0 % 256)) 0x203 (0x33 % 256) }) := rfl
  have h1 : single_cycle 0 { construct with
        memory := upd (upd (upd (upd construct.memory 0x200 (0xA3 % 256)) 0x201 (0x00 % 256))
          0x202 (0xF0 % 256)) 0x203 (0x33 % 256) } =
      some { construct with
        I := 0x300
        pc := 0x202
        memory := upd (upd (upd (upd construct.memory 0x200 (0xA3 % 256)) 0x201 (0x00 % 256))
          0x202 (0xF0 % 256)) 0x203 (0x33 % 256) } := rfl
  have hsome : (single_cycle 0 { construct with
        I := 0x300
        pc := 0x202
        memory := upd (upd (upd (upd construct.memory 0x200 (0xA3 % 256)) 0x201 (0x00 % 256))
          0x202 (0xF0 % 256)) 0x203 (0x33 % 256) }).isSome = true := by decide
  obtain ⟨s, hs⟩ := Option.isSome_iff_exists.1 hsome
  have hrun : run_rom [0xA3, 0x00, 0xF0, 0x33] [0, 0] = some s := by
    simp only [run_rom, hl, Option.some_bind, cycles, h1, hs]
  refine ⟨s, hrun, ?_⟩
  have hreach : Reach (fun t => ¬ stores_into_font t) s :=
    Reach.cycle 0 _ s
      (Reach.cycle 0 _ _ (Reach.load _ _ hl) (by decide) h1) (by decide) hs
  exact font_preserved s hreach 0 (by decide)

/-- C17 (counterexample): the two-byte program F033 stores the decimal digits of V[0] = 0 at
I = 0, all accesses in bounds, so after one cycle memory[0] is 0 while the font byte is
0xF0: a reachable state whose bytes 0..79 differ from the font. -/
theorem font_overwritten :
    (run_rom [0xF0, 0x33] [0]).map (fun s => s.memory 0) = some 0 ∧
    chip8_fontset.getD 0 0 = 0xF0 ∧
    ¬ (∀ s, Reachable s → ∀ i, i < 80 → s.memory i = chip8_fontset.getD i 0) := by
  have hrun : (run_rom [0xF0, 0x33] [0]).map (fun s => s.memory 0) = some 0 := by decide
  refine ⟨hrun, by decide, ?_⟩
  intro hall
  simp only [Option.map_eq_some'] at hrun
  obtain ⟨s, hs, h0⟩ := hrun
  have := hall s (run_rom_reachable _ _ s hs) 0 (by decide)
  rw [h0] at this
  revert this
  decide

/-! ## Stack pointer range (C18) -/

theorem case_0_sp (op : Nat) (s : Chip8) (hinv : s.sp ≤ 16) :
    ∀ s', case_0 op s = some s' → s'.sp ≤ 16 := by
  unfold case_0
  dsimp only
  repeat' first
    | exact opt_none
    | exact opt_some hinv
    | exact opt_some (Nat.le_of_lt (by assumption))
    | (apply opt_ite <;> intro _)

theorem case_8_sp (op : Nat) (s : Chip8) (hinv : s.sp ≤ 16) :
    ∀ s', case_8 op s = some s' → s'.sp ≤ 16 := by
  unfold case_8
  dsimp only
  repeat' first
    | exact opt_none
    | exact opt_some hinv
    | (apply opt_ite <;> intro _)

theorem case_13_sp (op : Nat) (s : Chip8) (hinv : s.sp ≤ 16) :
    ∀ s', case_13 op s = some s' → s'.sp ≤ 16 := by
  unfold case_13
  dsimp only
  apply opt_map
  intro _ _
  exact hinv

theorem case_14_sp (op : Nat) (s : Chip8) (hinv : s.sp ≤ 16) :
    ∀ s', case_14 op s = some s' → s'.sp ≤ 16 := by
  unfold case_14
  dsimp only
  repeat' first
    | exact opt_none
    | exact opt_some hinv
    | exact opt_some_ite (fun _ => hinv) (fun _ => hinv)
    | (apply opt_ite <;> intro _)

theorem case_15_sp (op : Nat) (s : Chip8) (hinv : s.sp ≤ 16) :
    ∀ s', case_15 op s = some s' → s'.sp ≤ 16 := by
  unfold case_15
  dsimp only
  repeat' first
    | exact opt_none
    | exact opt_some hinv
    | exact opt_some_ite (fun _ => hinv) (fun _ => hinv)
    | (apply opt_ite <;> intro _)
    | (apply opt_map; intro _ _; exact hinv)
    | (apply opt_bind; intro _ _)

/-- A defined pass through the instruction switch keeps the stack pointer in 0..16: a call is
defined only from a stack pointer below 16, a return only to one below 16. -/
theorem execute_sp (r op : Nat) (s : Chip8) (hinv : s.sp ≤ 16) :
    ∀ s', execute r op s = some s' → s'.sp ≤ 16 := by
  unfold execute
  dsimp only
  repeat' first
    | exact opt_none
    | exact opt_some hinv
    | exact opt_some_ite (fun _ => hinv) (fun _ => hinv)
    | exact case_0_sp _ _ hinv
    | exact case_8_sp _ _ hinv
    | exact case_13_sp _ _ hinv
    | exact case_14_sp _ _ hinv
    | exact case_15_sp _ _ hinv
    | (apply opt_ite <;> intro _)
  apply opt_some
  show (s.sp + 1) % 256 ≤ 16
  omega

theorem single_cycle_sp (r : Nat) (s s' : Chip8) (hinv : s.sp ≤ 16)
    (h : single_cycle r s = some s') : s'.sp ≤ 16 := by
  simp only [single_cycle, Option.bind_eq_some, Option.map_eq_some'] at h
  obtain ⟨op, _, s1, h1, rfl⟩ := h
  rw [timer_tick_sp]
  exact execute_sp r op s hinv s1 h1

/-! ## Program counter range (C19) -/

theorem upd_lt (f : Nat → Nat) (k v b : Nat) (hf : ∀ i, f i < b) (hv : v < b) :
    ∀ i, upd f k v i < b := by
  intro i
  by_cases hi : i = k
  · subst hi; rw [upd_same]; exact hv
  · rw [upd_other _ _ _ _ hi]; exact hf i

theorem upd_le (f : Nat → Nat) (k v b : Nat) (hf : ∀ i, f i ≤ b) (hv : v ≤ b) :
    ∀ i, upd f k v i ≤ b := by
  intro i
  by_cases hi : i = k
  · subst hi; rw [upd_same]; exact hv
  · rw [upd_other _ _ _ _ hi]; exact hf i

theorem to_uint8_lt (z : Int) : to_uint8 z < 256 := by
  unfold to_uint8
  omega

theorem flag_lt (c : Prop) [Decidable c] : (if c then 1 else 0) < 256 := by
  split <;> decide

theorem flag_lt_rev (c : Prop) [Decidable c] : (if c then 0 else 1) < 256 := by
  split <;> decide

theorem lor_lt_256 (a b : Nat) (ha : a < 256) (hb : b < 256) : a ||| b < 256 :=
  Nat.or_lt_two_pow (n := 8) ha hb

theorem land_lt_256 (a b : Nat) (hb : b < 256) : a &&& b < 256 :=
  Nat.and_lt_two_pow (n := 8) a hb

theorem xor_lt_256 (a b : Nat) (ha : a < 256) (hb : b < 256) : a ^^^ b < 256 :=
  Nat.xor_lt_two_pow (n := 8) ha hb

theorem fontset_lt (i : Nat) : chip8_fontset.getD i 0 < 256 := by
  by_cases hi : i < chip8_fontset.length
  · rw [List.getD_eq_getElem _ _ hi]
    have hall : ∀ b, b ∈ chip8_fontset → b < 256 := by decide
    exact hall _ (List.getElem_mem hi)
  · rw [List.getD_eq_default _ _ (by omega)]
    decide

theorem draw_cols_V_lt (pixel x y i : Nat) (st : (Nat → Nat) × (Nat → Int))
    (h : ∀ k, st.1 k < 256) : ∀ j k, (draw_cols pixel x y i j st).1 k < 256 := by
  intro j
  induction j with
  | zero => exact h
  | succ j ih =>
    simp only [draw_cols]
    split
    · dsimp only
      split
      · exact upd_lt _ _ _ _ ih (by decide)
      · exact ih
    · exact ih

theorem draw_rows_V_lt (mem : Nat → Nat) (I x y : Nat) (st : (Nat → Nat) × (Nat → Int))
    (h : ∀ k, st.1 k < 256) :
    ∀ n st', draw_rows mem I x y n st = some st' → ∀ k, st'.1 k < 256 := by
  intro n
  induction n with
  | zero =>
    intro st' hst
    cases hst
    exact h
  | succ n ih =>
    intro st' hst
    simp only [draw_rows, Option.bind_eq_some] at hst
    obtain ⟨st1, h1, pixel, _, h2⟩ := hst
    cases h2
    exact draw_cols_V_lt _ x y n st1 (ih st1 h1) 8

theorem key_scan_V_lt (keypad : Nat → Int) (reg : Nat) (st : Bool × (Nat → Nat))
    (h : ∀ k, st.2 k < 256) : ∀ n k, (key_scan keypad reg n st).2 k < 256 := by
  intro n
  induction n with
  | zero => exact h
  | succ n ih =>
    simp only [key_scan]
    split
    · exact upd_lt _ _ _ _ ih (Nat.mod_lt _ (by decide))
    · exact ih

theorem mem_write_lt (m m' : Nat → Nat) (a v : Nat) (h : mem_write m a v = some m')
    (hm : ∀ b, m b < 256) (hv : v < 256) : ∀ b, m' b < 256 := by
  unfold mem_write at h
  split at h
  · cases h; exact upd_lt _ _ _ _ hm hv
  · cases h

theorem reg_dump_lt (V : Nat → Nat) (I : Nat) (m : Nat → Nat) (hV : ∀ i, V i < 256)
    (hm : ∀ b, m b < 256) :
    ∀ n m', reg_dump V I n m = some m' → ∀ b, m' b < 256 := by
  intro n
  induction n with
  | zero =>
    intro m' h
    cases h
    exact hm
  | succ n ih =>
    intro m' h
    simp only [reg_dump, Option.bind_eq_some] at h
    obtain ⟨m1, h1, h2⟩ := h
    exact mem_write_lt m1 m' _ _ h2 (ih m1 h1) (hV n)

theorem reg_load_lt (mem : Nat → Nat) (I : Nat) (V : Nat → Nat) (hV : ∀ i, V i < 256)
    (hm : ∀ b, mem b < 256) :
    ∀ n V', reg_load mem I n V = some V' → ∀ i, V' i < 256 := by
  intro n
  induction n with
  | zero =>
    intro V' h
    cases h
    exact hV
  | succ n ih =>
    intro V' h
    simp only [reg_load, Option.bind_eq_some] at h
    obtain ⟨V1, h1, b, hb, h2⟩ := h
    cases h2
    unfold mem_read at hb
    split at hb
    · cases hb
      exact upd_lt _ _ _ _ (ih V1 h1) (hm _)
    · cases hb

theorem load_loop_lt (bytes : List Nat) :
    ∀ i m m', load_loop bytes i m = some m' → (∀ b, m b < 256) → ∀ b, m' b < 256 := by
  induction bytes with
  | nil =>
    intro i m m' h hm
    cases h
    exact hm
  | cons c rest ih =>
    intro i m m' h hm
    simp only [load_loop, Option.bind_eq_some] at h
    obtain ⟨m1, h1, h2⟩ := h
    exact ih (i + 1) m1 m' h2 (mem_write_lt m m1 _ _ h1 hm (Nat.mod_lt _ (by decide)))

theorem case_0_pc (op : Nat) (s : Chip8) (hb : pc_sources_bounded s) (hpc : s.pc ≤ 4094) :
    ∀ s', case_0 op s = some s' → pc_sources_bounded s' ∧ s'.pc ≤ 4350 := by
  have hp0 : s.pc ≤ 4350 := by omega
  have hp2 : (s.pc + 2) % 65536 ≤ 4350 := by omega
  have hret : ∀ k, (s.stack k + 2) % 65536 ≤ 4350 := by
    intro k
    have := hb.2.2.2 k
    omega
  unfold case_0
  dsimp only
  repeat' first
    | exact opt_none
    | exact opt_some ⟨hb, hp0⟩
    | exact opt_some ⟨hb, hp2⟩
    | exact opt_some ⟨hb, hret _⟩
    | (apply opt_ite <;> intro _)

theorem case_8_pc (op : Nat) (s : Chip8) (hb : pc_sources_bounded s) (hpc : s.pc ≤ 4094) :
    ∀ s', case_8 op s = some s' → pc_sources_bounded s' ∧ s'.pc ≤ 4350 := by
  have hp0 : s.pc ≤ 4350 := by omega
  have hp2 : (s.pc + 2) % 65536 ≤ 4350 := by omega
  obtain ⟨hV, hM, hD, hS⟩ := hb
  unfold case_8
  dsimp only
  repeat' first
    | exact opt_some ⟨⟨hV, hM, hD, hS⟩, hp0⟩
    | (apply opt_ite <;> intro _)
  all_goals
    apply opt_some
    refine ⟨⟨?_, hM, hD, hS⟩, hp2⟩
    dsimp only [pc_next]
    repeat' first
      | exact hV
      | exact hV _
      | exact flag_lt _
      | exact flag_lt_rev _
      | exact Nat.mod_lt _ (by decide)
      | exact to_uint8_lt _
      | exact lor_lt_256 _ _ (hV _) (hV _)
      | exact land_lt_256 _ _ (hV _)
      | exact xor_lt_256 _ _ (hV _) (hV _)
      | exact land_lt_256 _ _ (by decide)
      | (show (0 : Nat) < 256; decide)
      | apply upd_lt

theorem case_13_pc (op : Nat) (s : Chip8) (hb : pc_sources_bounded s) (hpc : s.pc ≤ 4094) :
    ∀ s', case_13 op s = some s' → pc_sources_bounded s' ∧ s'.pc ≤ 4350 := by
  have hp2 : (s.pc + 2) % 65536 ≤ 4350 := by omega
  obtain ⟨hV, hM, hD, hS⟩ := hb
  unfold case_13
  dsimp only
  apply opt_map
  intro st hst
  refine ⟨⟨?_, hM, hD, hS⟩, hp2⟩
  exact draw_rows_V_lt _ _ _ _ (upd s.V 0xF 0, s.display)
    (upd_lt _ _ _ _ hV (by decide)) _ st hst

theorem case_14_pc (op : Nat) (s : Chip8) (hb : pc_sources_bounded s) (hpc : s.pc ≤ 4094) :
    ∀ s', case_14 op s = some s' → pc_sources_bounded s' ∧ s'.pc ≤ 4350 := by
  have hp0 : s.pc ≤ 4350 := by omega
  have hp2 : (s.pc + 2) % 65536 ≤ 4350 := by omega
  have hp4 : ((s.pc + 2) % 65536 + 2) % 65536 ≤ 4350 := by omega
  unfold case_14
  dsimp only
  repeat' first
    | exact opt_none
    | exact opt_some ⟨hb, hp0⟩
    | exact opt_some_ite (fun _ => ⟨hb, hp4⟩) (fun _ => ⟨hb, hp2⟩)
    | (apply opt_ite <;> intro _)

theorem case_15_pc (op : Nat) (s : Chip8) (hb : pc_sources_bounded s) (hpc : s.pc ≤ 4094) :
    ∀ s', case_15 op s = some s' → pc_sources_bounded s' ∧ s'.pc ≤ 4350 := by
  have hp0 : s.pc ≤ 4350 := by omega
  have hp2 : (s.pc + 2) % 65536 ≤ 4350 := by omega
  obtain ⟨hV, hM, hD, hS⟩ := hb
  have hkey : ∀ reg k, (key_scan s.keypad reg 16 (false, s.V)).2 k < 256 :=
    fun reg => key_scan_V_lt s.keypad reg (false, s.V) hV 16
  unfold case_15
  dsimp only
  repeat' first
    | exact opt_some ⟨⟨hV, hM, hD, hS⟩, hp0⟩
    | exact opt_some ⟨⟨hV, hM, hD, hS⟩, hp2⟩
    | exact opt_some ⟨⟨upd_lt _ _ _ _ hV hD, hM, hD, hS⟩, hp2⟩
    | exact opt_some ⟨⟨upd_lt _ _ _ _ hV (flag_lt _), hM, hD, hS⟩, hp2⟩
    | exact opt_some ⟨⟨hV, hM, hV _, hS⟩, hp2⟩
    | exact opt_some_ite (fun _ => ⟨⟨hkey _, hM, hD, hS⟩, hp2⟩)
        (fun _ => ⟨⟨hkey _, hM, hD, hS⟩, hp0⟩)
    | (apply opt_ite <;> intro _)
  · apply opt_bind; intro m1 h1
    apply opt_bind; intro m2 h2
    apply opt_bind; intro m3 h3
    apply opt_some
    have hm1 := mem_write_lt _ _ _ _ h1 hM (Nat.mod_lt _ (by decide))
    have hm2 := mem_write_lt _ _ _ _ h2 hm1 (Nat.mod_lt _ (by decide))
    have hm3 := mem_write_lt _ _ _ _ h3 hm2 (Nat.mod_lt _ (by decide))
    exact ⟨⟨hV, hm3, hD, hS⟩, hp2⟩
  · apply opt_map
    intro m hm
    exact ⟨⟨hV, reg_dump_lt s.V s.I s.memory hV hM _ m hm, hD, hS⟩, hp2⟩
  · apply opt_map
    intro V1 hV1
    exact ⟨⟨reg_load_lt s.memory s.I s.V hV hM _ V1 hV1, hM, hD, hS⟩, hp2⟩

/-- A defined pass through the instruction switch from a PC at which the fetch was in bounds
keeps the sources of PC bounded and leaves PC at most 4095 + 255. -/
theorem execute_pc (r op : Nat) (s : Chip8) (hb : pc_sources_bounded s) (hpc : s.pc ≤ 4094) :
    ∀ s', execute r op s = some s' → pc_sources_bounded s' ∧ s'.pc ≤ 4350 := by
  have hp0 : s.pc ≤ 4350 := by omega
  have hp2 : (s.pc + 2) % 65536 ≤ 4350 := by omega
  have hp4 : ((s.pc + 2) % 65536 + 2) % 65536 ≤ 4350 := by omega
  have hj : (op &&& 0x0FFF) % 65536 ≤ 4350 := by rw [and_0FFF]; omega
  have hjv : ((op &&& 0x0FFF) % 65536 + s.V 0) % 65536 ≤ 4350 := by
    have := hb.1 0
    rw [and_0FFF]; omega
  have hb0 := hb
  obtain ⟨hV, hM, hD, hS⟩ := hb
  unfold execute
  dsimp only
  repeat' first
    | exact opt_none
    | exact opt_some ⟨hb0, hp0⟩
    | exact opt_some ⟨hb0, hp2⟩
    | exact opt_some ⟨hb0, hj⟩
    | exact opt_some ⟨hb0, hjv⟩
    | exact opt_some ⟨⟨hV, hM, hD, upd_le _ _ _ _ hS hpc⟩, hj⟩
    | exact opt_some ⟨⟨upd_lt _ _ _ _ hV (Nat.mod_lt _ (by decide)), hM, hD, hS⟩, hp2⟩
    | exact opt_some_ite (fun _ => ⟨hb0, hp4⟩) (fun _ => ⟨hb0, hp2⟩)
    | exact case_0_pc _ _ hb0 hpc
    | exact case_8_pc _ _ hb0 hpc
    | exact case_13_pc _ _ hb0 hpc
    | exact case_14_pc _ _ hb0 hpc
    | exact case_15_pc _ _ hb0 hpc
    | (apply opt_ite <;> intro _)

theorem single_cycle_pc (r : Nat) (s s' : Chip8) (hb : pc_sources_bounded s)
    (h : single_cycle r s = some s') : pc_sources_bounded s' ∧ s'.pc ≤ 4350 := by
  simp only [single_cycle, Option.bind_eq_some, Option.map_eq_some'] at h
  obtain ⟨op, hf, s1, h1, rfl⟩ := h
  have hpc := (fetch_some s op hf).1
  obtain ⟨⟨hV, hM, hD, hS⟩, hp⟩ := execute_pc r op s hb (by omega) s1 h1
  refine ⟨⟨by simpa using hV, by simpa using hM, ?_, by simpa using hS⟩, by simpa using hp⟩
  unfold timer_tick
  split
  · exact to_uint8_lt _
  · exact hD

theorem reachable_pc (s : Chip8) (h : Reachable s) :
    pc_sources_bounded s ∧ s.pc ≤ 4350 := by
  unfold Reachable at h
  induction h with
  | load rom s hload =>
    obtain ⟨hV, _, hpc, _, hS, hD, _, _, m, hm, hmem⟩ := load_rom_members rom s hload
    refine ⟨⟨?_, ?_, ?_, ?_⟩, ?_⟩
    · rw [hV]; intro i; show (0 : Nat) < 256; decide
    · rw [hmem]
      refine load_loop_lt rom 0x200 construct.memory m hm ?_
      intro b
      show (if b < 80 then chip8_fontset.getD b 0 else 0) < 256
      split
      · exact fontset_lt b
      · decide
    · rw [hD]; show (0 : Nat) < 256; decide
    · rw [hS]; intro i; show (0 : Nat) ≤ 4094; decide
    · rw [hpc]; show (0x200 : Nat) ≤ 4350; decide
  | cycle r s s' _ _ hstep ih => exact single_cycle_pc r s s' ih.1 hstep
  | key index val s s' _ hkey ih =>
    unfold set_keypad_value at hkey
    split at hkey
    · cases hkey; exact ih
    · cases hkey
  | flag b s _ ih => exact ih

/-- C19 (program counter range, as amended): in every state reachable from a freshly
constructed machine by loading any program and executing any number of cycles with a defined
result, PC <= 4350 (= 4095 + 255, reached by BNNN); the bound PC <= 4094, which the next fetch
needs to stay inside memory, is not maintained. -/
theorem program_counter_range (s : Chip8) (h : Reachable s) : s.pc ≤ 4350 :=
  (reachable_pc s h).2

/-- Witness for C19 (amended): the program 60FF BFFF (V[0] = 255, then jump to 0xFFF + V[0])
reaches PC = 4350 after two cycles, so the bound is attained. -/
theorem program_counter_range_witness :
    ∃ s, run_rom [0x60, 0xFF, 0xBF, 0xFF] [0, 0] = some s ∧ s.pc ≤ 4350 ∧ s.pc = 4350 := by
  have hpc : (run_rom [0x60, 0xFF, 0xBF, 0xFF] [0, 0]).map (fun s => s.pc) = some 4350 := by
    decide
  simp only [Option.map_eq_some'] at hpc
  obtain ⟨s, hs, h⟩ := hpc
  exact ⟨s, hs, program_counter_range s (run_rom_reachable _ _ s hs), h⟩

/-- C19 (counterexample): after loading the two-byte program 1FFF (jump to 0xFFF) one cycle
leaves PC = 4095 > 4094; the next fetch would read memory[4096] and has no defined result. -/
theorem program_counter_past_fetch_limit :
    (run_rom [0x1F, 0xFF] [0]).map (fun s => (s.pc, (fetch s).isSome)) = some (4095, false) ∧
    ¬ (∀ s, Reachable s → s.pc ≤ 4094) := by
  have hrun : (run_rom [0x1F, 0xFF] [0]).map (fun s => (s.pc, (fetch s).isSome)) =
      some (4095, false) := by decide
  refine ⟨hrun, ?_⟩
  intro hall
  simp only [Option.map_eq_some', Prod.mk.injEq] at hrun
  obtain ⟨s, hs, h, _⟩ := hrun
  have := hall s (run_rom_reachable _ _ s hs)
  omega

/-! ## Framebuffer cells are binary (C20) -/

theorem int_xor_one_binary (a : Int) (h : a = 0 ∨ a = 1) :
    Int.xor a 1 = 0 ∨ Int.xor a 1 = 1 := by
  rcases h with h | h <;> subst h
  · exact Or.inr rfl
  · exact Or.inl rfl

theorem draw_cols_binary (pixel x y i : Nat) (st : (Nat → Nat) × (Nat → Int))
    (h : binary_cells st.2) : ∀ j, binary_cells (draw_cols pixel x y i j st).2 := by
  intro j
  induction j with
  | zero => exact h
  | succ j ih =>
    simp only [draw_cols]
    split
    · intro c
      by_cases hc : c = ((x + j) + ((y + i) * 64)) % 2048
      · subst hc
        simp only [upd_same]
        exact int_xor_one_binary _ (ih _)
      · simp only [upd_other _ _ _ _ hc]
        exact ih c
    · exact ih

theorem draw_rows_binary (mem : Nat → Nat) (I x y : Nat) (st : (Nat → Nat) × (Nat → Int))
    (h : binary_cells st.2) :
    ∀ n st', draw_rows mem I x y n st = some st' → binary_cells st'.2 := by
  intro n
  induction n with
  | zero =>
    intro st' hst
    cases hst
    exact h
  | succ n ih =>
    intro st' hst
    simp only [draw_rows, Option.bind_eq_some] at hst
    obtain ⟨st1, h1, pixel, _, h2⟩ := hst
    cases h2
    exact draw_cols_binary _ x y n st1 (ih st1 h1) 8

theorem case_0_binary (op : Nat) (s : Chip8) (hinv : binary_cells s.display) :
    ∀ s', case_0 op s = some s' → binary_cells s'.display := by
  unfold case_0
  dsimp only
  repeat' first
    | exact opt_none
    | exact opt_some hinv
    | exact opt_some (fun _ => Or.inl rfl)
    | (apply opt_ite <;> intro _)

theorem case_8_binary (op : Nat) (s : Chip8) (hinv : binary_cells s.display) :
    ∀ s', case_8 op s = some s' → binary_cells s'.display := by
  unfold case_8
  dsimp only
  repeat' first
    | exact opt_none
    | exact opt_some hinv
    | (apply opt_ite <;> intro _)

theorem case_13_binary (op : Nat) (s : Chip8) (hinv : binary_cells s.display) :
    ∀ s', case_13 op s = some s' → binary_cells s'.display := by
  unfold case_13
  dsimp only
  apply opt_map
  intro st hst
  exact draw_rows_binary _ _ _ _ _ hinv _ st hst

theorem case_14_binary (op : Nat) (s : Chip8) (hinv : binary_cells s.display) :
    ∀ s', case_14 op s = some s' → binary_cells s'.display := by
  unfold case_14
  dsimp only
  repeat' first
    | exact opt_none
    | exact opt_some hinv
    | exact opt_some_ite (fun _ => hinv) (fun _ => hinv)
    | (apply opt_ite <;> intro _)

theorem case_15_binary (op : Nat) (s : Chip8) (hinv : binary_cells s.display) :
    ∀ s', case_15 op s = some s' → binary_cells s'.display := by
  unfold case_15
  dsimp only
  repeat' first
    | exact opt_none
    | exact opt_some hinv
    | exact opt_some_ite (fun _ => hinv) (fun _ => hinv)
    | (apply opt_ite <;> intro _)
    | (apply opt_map; intro _ _; exact hinv)
    | (apply opt_bind; intro _ _)

/-- The framebuffer is written by 00E0 (all cells 0) and by DXYN (cells XORed with 1) only. -/
theorem execute_binary (r op : Nat) (s : Chip8) (hinv : binary_cells s.display) :
    ∀ s', execute r op s = some s' → binary_cells s'.display := by
  unfold execute
  dsimp only
  repeat' first
    | exact opt_none
    | exact opt_some hinv
    | exact opt_some_ite (fun _ => hinv) (fun _ => hinv)
    | exact case_0_binary _ _ hinv
    | exact case_8_binary _ _ hinv
    | exact case_13_binary _ _ hinv
    | exact case_14_binary _ _ hinv
    | exact case_15_binary _ _ hinv
    | (apply opt_ite <;> intro _)

theorem single_cycle_binary (r : Nat) (s s' : Chip8) (hinv : binary_cells s.display)
    (h : single_cycle r s = some s') : binary_cells s'.display := by
  simp only [single_cycle, Option.bind_eq_some, Option.map_eq_some'] at h
  obtain ⟨op, _, s1, h1, rfl⟩ := h
  rw [timer_tick_display]
  exact execute_binary r op s hinv s1 h1

theorem reachable_binary (s : Chip8) (h : Reachable s) : binary_cells s.display := by
  unfold Reachable at h
  induction h with
  | load rom s hload =>
    rw [(load_rom_members rom s hload).2.2.2.2.2.2.1]
    exact fun _ => Or.inl rfl
  | cycle r s s' _ _ hstep ih => exact single_cycle_binary r s s' ih hstep
  | key index val s s' _ hkey ih =>
    unfold set_keypad_value at hkey
    split at hkey
    · cases hkey; exact ih
    · cases hkey
  | flag b s _ ih => exact ih

/-- C20 (framebuffer cells are binary): in every state reachable from a freshly constructed
machine by loading any program and executing any number of cycles (every array access in
bounds), each of the 2048 cells returned by `get_display_value` is 0 or 1. -/
theorem display_cells_binary (s : Chip8) (h : Reachable s) (c : Nat) (hc : c < 2048) :
    get_display_value s c = some 0 ∨ get_display_value s c = some 1 := by
  have hb := reachable_binary s h c
  simp only [get_display_value, hc, if_true, Option.some.injEq]
  exact hb

/-- Witness for C20: after loading the program A000 D005 (draw the glyph "0" at the origin) and
two cycles, cell 0 of the framebuffer is 0 or 1. -/
theorem display_cells_binary_witness :
    ∃ s, run_rom [0xA0, 0x00, 0xD0, 0x05] [0, 0] = some s ∧
      (get_display_value s 0 = some 0 ∨ get_display_value s 0 = some 1) := by
  have hsome : (run_rom [0xA0, 0x00, 0xD0, 0x05] [0, 0]).isSome = true := by decide
  obtain ⟨s, hs⟩ := Option.isSome_iff_exists.1 hsome
  exact ⟨s, hs, display_cells_binary s (run_rom_reachable _ _ s hs) 0 (by decide)⟩


/-! ## Sprite placement (C21) -/

/-- The cells addressed by set sprite bits, in the terms of the loop invariant and in the terms
of rows `i < N`, columns `j < 8` and bit `7 - j` of the sprite byte. -/
theorem draw_hit_iff (mem : Nat → Nat) (I x y N c : Nat) :
    draw_hit mem I x y (8 * N) c ↔
      ∃ i j, i < N ∧ j < 8 ∧ (mem (I + i)).testBit (7 - j) = true ∧
        (x + j + 64 * (y + i)) % 2048 = c := by
  constructor
  · rintro ⟨i, j, hj, hlt, hb, hc⟩
    refine ⟨i, j, by omega, hj, (mask_test_iff_testBit _ j hj).1 hb, ?_⟩
    rw [show x + j + 64 * (y + i) = (x + j) + ((y + i) * 64) by omega]
    exact hc
  · rintro ⟨i, j, hi, hj, hb, hc⟩
    refine ⟨i, j, hj, by omega, (mask_test_iff_testBit _ j hj).2 hb, ?_⟩
    rw [show x + j + 64 * (y + i) = (x + j) + ((y + i) * 64) by omega] at hc
    exact hc

/-- C21 (sprite placement with linear wrap): for X and Y in 0..14 and height N with
I + N <= 4096, after one `single_cycle` on DXYN each framebuffer cell c equals its previous
value XOR 1 if there are a row i < N and a column j < 8 with bit (7 - j) of memory[I + i] set
and `(V[X] + j + 64 * (V[Y] + i)) mod 2048 = c`, and equals its previous value otherwise;
distinct (i, j) pairs never address the same cell; memory, I and every register except V[15]
are unchanged. -/
theorem sprite_placement (r : Nat) (s : Chip8) (X Y N : Nat) (hX : X < 15) (hY : Y < 15)
    (hN : N < 16) (h : fetch s = some (0xD000 + 0x100 * X + 0x10 * Y + N))
    (hI : s.I + N ≤ 4096) :
    ∃ s', single_cycle r s = some s' ∧
      (∀ c,
        ((∃ i j, i < N ∧ j < 8 ∧ (s.memory (s.I + i)).testBit (7 - j) = true ∧
            (s.V X + j + 64 * (s.V Y + i)) % 2048 = c) →
          s'.display c = Int.xor (s.display c) 1) ∧
        ((¬ ∃ i j, i < N ∧ j < 8 ∧ (s.memory (s.I + i)).testBit (7 - j) = true ∧
            (s.V X + j + 64 * (s.V Y + i)) % 2048 = c) →
          s'.display c = s.display c)) ∧
      (∀ i j i2 j2, i < N → i2 < N → j < 8 → j2 < 8 →
        (s.V X + j + 64 * (s.V Y + i)) % 2048 = (s.V X + j2 + 64 * (s.V Y + i2)) % 2048 →
        i = i2 ∧ j = j2) ∧
      s'.memory = s.memory ∧ s'.I = s.I ∧ (∀ k, k ≠ 15 → s'.V k = s.V k) := by
  obtain ⟨s', hs', hinv, _, hmem, hIeq, _⟩ :=
    draw_cycle r s X Y N (by omega) (by omega) hN h hI
  have hx : upd s.V 0xF 0 X = s.V X := upd_other _ _ _ _ (by omega)
  have hy : upd s.V 0xF 0 Y = s.V Y := upd_other _ _ _ _ (by omega)
  rw [hx, hy] at hinv
  obtain ⟨hcells, hV1, hV0⟩ := hinv
  refine ⟨s', hs', ?_, ?_, hmem, hIeq, ?_⟩
  · intro c
    rw [← draw_hit_iff]
    exact hcells c
  · intro i j i2 j2 hi hi2 hj hj2 heq
    refine cell_index_inj (s.V X) (s.V Y) i j i2 j2 (by omega) (by omega) hj hj2 ?_
    rw [show (s.V X + j) + ((s.V Y + i) * 64) = s.V X + j + 64 * (s.V Y + i) by omega,
      show (s.V X + j2) + ((s.V Y + i2) * 64) = s.V X + j2 + 64 * (s.V Y + i2) by omega]
    exact heq
  · intro k hk
    by_cases hc : draw_coll s.memory s.I (s.V X) (s.V Y) s.display (8 * N)
    · have e : s'.V = upd (upd s.V 0xF 0) 0xF 1 := hV1 hc
      rw [e, upd_other _ _ _ _ hk, upd_other _ _ _ _ hk]
    · have e : s'.V = upd s.V 0xF 0 := hV0 hc
      rw [e, upd_other _ _ _ _ hk]

/-- Witness for C21: the word D011 with V[0] = 62, V[1] = 31, I = 0x300 and the sprite byte
0xE0 at memory[0x300]: bit 7 lands on cell 62 + 64 * 31 = 2046, bit 6 on 2047 and bit 5 wraps
linearly to cell 2048 mod 2048 = 0; all three are toggled from 0 to 1. -/
theorem sprite_placement_witness :
    ∃ s', single_cycle 0
        { machine_with (upd (upd construct.V 0 62) 1 31) 0xD0 0x11 with
          I := 0x300
          memory := upd (machine_with (upd (upd construct.V 0 62) 1 31) 0xD0 0x11).memory
            0x300 0xE0 } = some s' ∧
      s'.display 2046 = 1 ∧ s'.display 2047 = 1 ∧ s'.display 0 = 1 ∧ s'.V 0 = 62 ∧
      s'.I = 0x300 := by
  obtain ⟨s', h1, hcells, _, _, hI, hV⟩ :=
    sprite_placement 0
      { machine_with (upd (upd construct.V 0 62) 1 31) 0xD0 0x11 with
        I := 0x300
        memory := upd (machine_with (upd (upd construct.V 0 62) 1 31) 0xD0 0x11).memory
          0x300 0xE0 }
      0 1 1 (by decide) (by decide) (by decide) (by decide) (by decide)
  refine ⟨s', h1, ?_, ?_, ?_, (hV 0 (by decide)).trans (by decide), hI⟩
  · exact ((hcells 2046).1 ⟨0, 0, by decide, by decide, by decide, by decide⟩).trans
      (by decide)
  · exact ((hcells 2047).1 ⟨0, 1, by decide, by decide, by decide, by decide⟩).trans
      (by decide)
  · exact ((hcells 0).1 ⟨0, 2, by decide, by decide, by decide, by decide⟩).trans
      (by decide)

/-! ## An unknown word is fetched forever (C22) -/

/-- One cycle on an unknown word is the timer decrement alone. -/
theorem single_cycle_unknown (r : Nat) (s : Chip8) (op : Nat) (hf : fetch s = some op)
    (hu : unknown_word op) : single_cycle r s = some (timer_tick s) := by
  rw [single_cycle_of_fetch r s _ hf, execute_unknown r op s hu]
  rfl

/-- The timer decrement does not move the fetch. -/
theorem fetch_timer_tick (s : Chip8) : fetch (timer_tick s) = fetch s := by
  simp [fetch]

/-- C22 (unknown instruction re-fetched forever): from a state whose instruction word at PC is
unrecognised, any number n of consecutive cycles (one per element of `rs`, the values `rand()`
would return; no key or host call in between) has a defined result in which PC, memory, all
registers, I, stack, stack pointer, framebuffer, redraw flag and keypad equal their initial
values, the word at PC is still the same unknown word, and the delay timer equals
max(d - n, 0) for its initial (8-bit) value d. -/
theorem unknown_word_forever (s : Chip8) (op : Nat) (hf : fetch s = some op)
    (hu : unknown_word op) (hd : s.delay_timer < 256) (rs : List Nat) :
    ∃ s', cycles rs s = some s' ∧
      s'.pc = s.pc ∧ s'.memory = s.memory ∧ s'.V = s.V ∧ s'.I = s.I ∧
      s'.stack = s.stack ∧ s'.sp = s.sp ∧ s'.display = s.display ∧
      s'.draw_flag = s.draw_flag ∧ s'.keypad = s.keypad ∧
      fetch s' = some op ∧
      s'.delay_timer = s.delay_timer - rs.length ∧
      (s'.delay_timer : Int) = max ((s.delay_timer : Int) - (rs.length : Int)) 0 := by
  induction rs generalizing s with
  | nil =>
    refine ⟨s, rfl, rfl, rfl, rfl, rfl, rfl, rfl, rfl, rfl, rfl, hf, rfl, ?_⟩
    simp
  | cons r rs ih =>
    have hd1 : (timer_tick s).delay_timer = s.delay_timer - 1 := timer_tick_delay_timer s hd
    obtain ⟨s', hrun, hpc, hmem, hV, hI, hstack, hsp, hdisp, hflag, hkey, hfetch, htimer, _⟩ :=
      ih (timer_tick s) (by rw [fetch_timer_tick]; exact hf) (by omega)
    refine ⟨s', ?_, ?_, ?_, ?_, ?_, ?_, ?_, ?_, ?_, ?_, hfetch, ?_, ?_⟩
    · simp only [cycles, single_cycle_unknown r s op hf hu, Option.some_bind]
      exact hrun
    · rw [hpc, timer_tick_pc]
    · rw [hmem, timer_tick_memory]
    · rw [hV, timer_tick_V]
    · rw [hI, timer_tick_I]
    · rw [hstack, timer_tick_stack]
    · rw [hsp, timer_tick_sp]
    · rw [hdisp, timer_tick_display]
    · rw [hflag, timer_tick_draw_flag]
    · rw [hkey, timer_tick_keypad]
    · rw [htimer, hd1, List.length_cons]
      omega
    · rw [htimer, hd1, List.length_cons]
      omega

/-- Witness for C22: the unknown word 0000 at 0x200 with the delay timer at 3: after five
cycles PC is still 0x200, the word at PC is still 0000 and the timer is 0. -/
theorem unknown_word_forever_witness :
    ∃ s', cycles [0, 0, 0, 0, 0] { machine_with construct.V 0x00 0x00 with delay_timer := 3 } =
        some s' ∧
      s'.pc = 0x200 ∧ fetch s' = some 0x0000 ∧ s'.delay_timer = 0 := by
  obtain ⟨s', h1, h2, _, _, _, _, _, _, _, _, h3, h4, _⟩ :=
    unknown_word_forever { machine_with construct.V 0x00 0x00 with delay_timer := 3 } 0
      (by decide) (by decide) (by decide) [0, 0, 0, 0, 0]
  exact ⟨s', h1, h2, h3, h4⟩

/-! ## Stack accesses without the bounds check (C9, C18) -/

theorem get_nibble_00EE : get_nibble 0x00EE 12 0xF000 = 0 := by decide

/-- A pass through the instruction switch that has a result under the bounds-checked reading
accesses the stack in range. -/
theorem execute_stack_access_ok (r op : Nat) (s s' : Chip8) (h : execute r op s = some s') :
    stack_access_ok op s := by
  constructor
  · intro hop
    subst hop
    by_contra hlt
    have hnone : execute r 0x00EE s = none := by
      simp only [execute, get_nibble_00EE, case_0]
      simp [hlt]
    rw [hnone] at h
    cases h
  · intro h2
    by_contra hlt
    have hnone : execute r op s = none := by
      simp only [execute, h2]
      simp [hlt]
    rw [hnone] at h
    cases h

/-- With the stack access in range the unchecked switch is the bounds-checked one. -/
theorem execute_raw_eq (r op : Nat) (s : Chip8) (hok : stack_access_ok op s) :
    execute_raw r op s = execute r op s := by
  unfold execute_raw
  by_cases hop : op = 0x00EE
  · subst hop
    have hlt := hok.1 rfl
    simp only [execute, get_nibble_00EE, case_0]
    simp [stack_at, hlt]
  · by_cases h2 : get_nibble op 12 0xF000 = 2
    · have hlt := hok.2 h2
      simp only [if_neg hop, if_pos h2, execute, h2]
      simp [stack_store, hlt]
    · simp only [if_neg hop, if_neg h2]

theorem single_cycle_raw_of_fetch (r : Nat) (s : Chip8) (op : Nat) (h : fetch s = some op) :
    single_cycle_raw r s = (execute_raw r op s).map timer_tick := by
  simp [single_cycle_raw, h]

/-- A cycle that has a result under the bounds-checked reading accesses the stack in range. -/
theorem single_cycle_stack_in_range (r : Nat) (s s' : Chip8) (h : single_cycle r s = some s') :
    stack_in_range s := by
  simp only [single_cycle, Option.bind_eq_some, Option.map_eq_some'] at h
  obtain ⟨op, hf, s1, h1, _⟩ := h
  unfold stack_in_range
  rw [hf]
  exact execute_stack_access_ok r op s s1 h1

/-- The unchecked cycle extends the bounds-checked one. -/
theorem single_cycle_raw_of_single_cycle (r : Nat) (s s' : Chip8)
    (h : single_cycle r s = some s') : single_cycle_raw r s = some s' := by
  have hok := single_cycle_stack_in_range r s s' h
  simp only [single_cycle, Option.bind_eq_some] at h
  obtain ⟨op, hf, h1⟩ := h
  unfold stack_in_range at hok
  rw [hf] at hok
  rw [single_cycle_raw_of_fetch r s op hf, execute_raw_eq r op s hok]
  exact h1

/-- From a state whose stack access is in range the unchecked cycle is the bounds-checked
one. -/
theorem single_cycle_of_raw (r : Nat) (s s' : Chip8) (hok : stack_in_range s)
    (h : single_cycle_raw r s = some s') : single_cycle r s = some s' := by
  simp only [single_cycle_raw, Option.bind_eq_some] at h
  obtain ⟨op, hf, h1⟩ := h
  unfold stack_in_range at hok
  rw [hf] at hok
  rw [single_cycle_of_fetch r s op hf, ← execute_raw_eq r op s hok]
  exact h1

theorem cycles_raw_of_cycles (rs : List Nat) :
    ∀ s s', cycles rs s = some s' → cycles_raw rs s = some s' := by
  induction rs with
  | nil =>
    intro s s' h
    exact h
  | cons r rs ih =>
    intro s s' h
    simp only [cycles, Option.bind_eq_some] at h
    obtain ⟨s1, h1, h2⟩ := h
    simp only [cycles_raw, Option.bind_eq_some]
    exact ⟨s1, single_cycle_raw_of_single_cycle r s s1 h1, ih s1 s' h2⟩

theorem run_rom_raw_of_run_rom (rom rs : List Nat) (s : Chip8) (h : run_rom rom rs = some s) :
    run_rom_raw rom rs = some s := by
  simp only [run_rom, Option.bind_eq_some] at h
  obtain ⟨p, hp, hc⟩ := h
  simp only [run_rom_raw, Option.bind_eq_some]
  exact ⟨p, hp, cycles_raw_of_cycles rs p.2 s hc⟩

/-- A run under the bounds-checked reading is a run of the unchecked machine whose stack
accesses are all in range. -/
theorem reach_raw_of_reachable (s : Chip8) (h : Reachable s) : ReachRaw stack_in_range s := by
  unfold Reachable at h
  induction h with
  | load rom s hload => exact ReachRaw.load rom s hload
  | cycle r s s' _ _ hstep ih =>
    exact ReachRaw.cycle r s s' ih (single_cycle_stack_in_range r s s' hstep)
      (single_cycle_raw_of_single_cycle r s s' hstep)
  | key index val s s' _ hkey ih => exact ReachRaw.key index val s s' ih hkey
  | flag b s _ ih => exact ReachRaw.flag b s ih

theorem cycles_raw_reach (rs : List Nat) :
    ∀ s s', ReachRaw (fun _ => True) s → cycles_raw rs s = some s' →
      ReachRaw (fun _ => True) s' := by
  induction rs with
  | nil =>
    intro s s' hs h
    cases h
    exact hs
  | cons r rs ih =>
    intro s s' hs h
    simp only [cycles_raw, Option.bind_eq_some] at h
    obtain ⟨s1, h1, h2⟩ := h
    exact ih s1 s' (ReachRaw.cycle r s s1 hs trivial h1) h2

/-- The result of `run_rom_raw` is a state of a host run of the unchecked machine. -/
theorem run_rom_raw_reach (rom rs : List Nat) (s : Chip8) (h : run_rom_raw rom rs = some s) :
    ReachRaw (fun _ => True) s := by
  simp only [run_rom_raw, Option.bind_eq_some] at h
  obtain ⟨p, hp, hc⟩ := h
  have hload : load_rom (some rom) construct = some (true, p.2) := by
    rw [hp]
    simp only [load_rom, Option.map_eq_some'] at hp
    obtain ⟨m, _, rfl⟩ := hp
    rfl
  exact cycles_raw_reach rs p.2 s (ReachRaw.load rom p.2 hload) hc

/-- The unchecked switch writes the delay timer only in FX15 and in a call executed with stack
pointer 16. -/
theorem execute_raw_delay_timer (r op : Nat) (s : Chip8) (hne : ¬ is_FX15 op)
    (hcall : ¬ call_hits_timer op s) :
    ∀ s', execute_raw r op s = some s' → s'.delay_timer = s.delay_timer := by
  unfold execute_raw
  by_cases hop : op = 0x00EE
  · simp only [if_pos hop]
    exact opt_some rfl
  · by_cases h2 : get_nibble op 12 0xF000 = 2
    · simp only [if_neg hop, if_pos h2]
      apply opt_some
      have h16 : s.sp ≠ 16 := fun h => hcall ⟨h2, h⟩
      show (stack_store s s.sp s.pc).delay_timer = s.delay_timer
      simp only [stack_store, if_neg h16]
      split <;> rfl
    · simp only [if_neg hop, if_neg h2]
      exact execute_delay_timer r op s hne

/-- One unchecked cycle on an instruction other than FX15 and other than a call with stack
pointer 16 decrements a nonzero timer by one and leaves a zero timer at zero. -/
theorem single_cycle_raw_delay_timer (r : Nat) (s s' : Chip8) (op : Nat)
    (hf : fetch s = some op) (hne : ¬ is_FX15 op) (hcall : ¬ call_hits_timer op s)
    (hd : s.delay_timer < 256) (h : single_cycle_raw r s = some s') :
    s'.delay_timer = s.delay_timer - 1 := by
  rw [single_cycle_raw_of_fetch r s _ hf] at h
  simp only [Option.map_eq_some'] at h
  obtain ⟨s1, h1, rfl⟩ := h
  have := execute_raw_delay_timer r op s hne hcall s1 h1
  rw [timer_tick_delay_timer s1 (by omega), this]

/-- FX15 is not a stack instruction: the unchecked cycle on it is the bounds-checked one. -/
theorem single_cycle_raw_FX15 (r : Nat) (s : Chip8) (X : Nat) (hX : X < 16)
    (hf : fetch s = some (0xF015 + 0x100 * X)) :
    single_cycle_raw r s = single_cycle r s := by
  have e12 : get_nibble (0xF015 + 0x100 * X) 12 0xF000 = 15 := by
    rw [get_nibble_12]; omega
  have hok : stack_access_ok (0xF015 + 0x100 * X) s := by
    constructor
    · intro h; omega
    · intro h; rw [e12] at h; cases h
  rw [single_cycle_raw_of_fetch r s _ hf, single_cycle_of_fetch r s _ hf, execute_raw_eq _ _ _ hok]

/-- Along a run of `n` unchecked cycles none of which executes FX15 or a call with stack
pointer 16, the timer loses one per cycle until it reaches zero. -/
theorem delay_timer_after_raw (t : Nat → Chip8) (hd : (t 0).delay_timer < 256) :
    ∀ n, (∀ k, k < n → ∃ r op, fetch (t k) = some op ∧ ¬ is_FX15 op ∧
        ¬ call_hits_timer op (t k) ∧ single_cycle_raw r (t k) = some (t (k + 1))) →
      (t n).delay_timer = (t 0).delay_timer - n := by
  intro n
  induction n with
  | zero => intro _; rfl
  | succ n ih =>
    intro hrun
    have hn := ih (fun k hk => hrun k (by omega))
    obtain ⟨r, op, hf, hne, hcall, hstep⟩ := hrun n (by omega)
    rw [single_cycle_raw_delay_timer r (t n) (t (n + 1)) op hf hne hcall (by omega) hstep, hn]
    omega

/-- C9 (delay timer, as amended): one `single_cycle` that has a result (its fetch, memory and
keypad accesses are in range), on any instruction word other than FX15 (unknown words included)
and other than a call 2NNN executed with stack pointer 16, leaves the delay timer at d - 1 if
d > 0 and at 0 if d = 0; hence after FX15 with V[X] = 5 and five further such cycles the timer
is 0, and it is still 0 after a sixth. States are `t 0` (executing FX15), `t 1`, ..., `t 7`;
the stack accesses are the unchecked ones of the source. -/
theorem delay_timer_countdown :
    (∀ (r : Nat) (s s' : Chip8) (op : Nat), fetch s = some op → ¬ is_FX15 op →
      ¬ call_hits_timer op s → s.delay_timer < 256 → single_cycle_raw r s = some s' →
      (0 < s.delay_timer → s'.delay_timer = s.delay_timer - 1) ∧
      (s.delay_timer = 0 → s'.delay_timer = 0)) ∧
    (∀ (t : Nat → Chip8) (X : Nat), X < 16 →
      fetch (t 0) = some (0xF015 + 0x100 * X) → (t 0).V X = 5 →
      (∀ k, k ≤ 6 → ∃ r, single_cycle_raw r (t k) = some (t (k + 1))) →
      (∀ k, 1 ≤ k → k ≤ 6 →
        ∃ op, fetch (t k) = some op ∧ ¬ is_FX15 op ∧ ¬ call_hits_timer op (t k)) →
      (t 6).delay_timer = 0 ∧ (t 7).delay_timer = 0) := by
  constructor
  · intro r s s' op hf hne hcall hd h
    have := single_cycle_raw_delay_timer r s s' op hf hne hcall hd h
    exact ⟨fun _ => this, fun h0 => by omega⟩
  · intro t X hX hf hv hrun hother
    obtain ⟨r0, h0⟩ := hrun 0 (by omega)
    obtain ⟨s1, hs1, hd1⟩ := single_cycle_FX15 r0 (t 0) X hX hf (by omega)
    rw [← single_cycle_raw_FX15 r0 (t 0) X hX hf, h0] at hs1
    have e1 : t 1 = s1 := Option.some.inj hs1
    rw [← e1, hv] at hd1
    have hrest : ∀ n, n ≤ 6 → (t (n + 1)).delay_timer = (t 1).delay_timer - n := by
      intro n hn
      have := delay_timer_after_raw (fun k => t (k + 1))
        (by show (t 1).delay_timer < 256; omega) n
        (fun k hk => by
          obtain ⟨r, hr⟩ := hrun (k + 1) (by omega)
          obtain ⟨op, hop, hne, hcall⟩ := hother (k + 1) (by omega) (by omega)
          exact ⟨r, op, hop, hne, hcall, hr⟩)
      exact this
    have h6 : (t 6).delay_timer = (t 1).delay_timer - 5 := hrest 5 (by omega)
    have h7 : (t 7).delay_timer = (t 1).delay_timer - 6 := hrest 6 (by omega)
    constructor <;> omega

/-- Witness for C9 (amended): V[0] = 5 and the word F015 at 0x200, followed by the unknown word
0000 at 0x202, which is fetched again on every later cycle. The second cycle takes the timer
from 4 to 3; six cycles from the start give a state with timer 0, and one more cycle leaves it
at 0. -/
theorem delay_timer_countdown_witness :
    (∃ s1 s2, single_cycle_raw 0 (machine_with (upd construct.V 0 5) 0xF0 0x15) = some s1 ∧
      single_cycle_raw 0 s1 = some s2 ∧ s1.delay_timer = 4 ∧ s2.delay_timer = 3) ∧
    (∃ s6 s7, cycles_raw (List.replicate 6 0) (machine_with (upd construct.V 0 5) 0xF0 0x15) =
        some s6 ∧ single_cycle_raw 0 s6 = some s7 ∧
      s6.delay_timer = 0 ∧ s7.delay_timer = 0) := by
  have c0 : single_cycle_raw 0 (countdown_trace 0) = some (countdown_trace 1) := rfl
  have c1 : single_cycle_raw 0 (countdown_trace 1) = some (countdown_trace 2) := rfl
  have c2 : single_cycle_raw 0 (countdown_trace 2) = some (countdown_trace 3) := rfl
  have c3 : single_cycle_raw 0 (countdown_trace 3) = some (countdown_trace 4) := rfl
  have c4 : single_cycle_raw 0 (countdown_trace 4) = some (countdown_trace 5) := rfl
  have c5 : single_cycle_raw 0 (countdown_trace 5) = some (countdown_trace 6) := rfl
  have c6 : single_cycle_raw 0 (countdown_trace 6) = some (countdown_trace 7) := rfl
  have hrun : ∀ k, k ≤ 6 → ∃ r,
      single_cycle_raw r (countdown_trace k) = some (countdown_trace (k + 1)) := by
    intro k hk
    refine ⟨0, ?_⟩
    interval_cases k
    exacts [c0, c1, c2, c3, c4, c5, c6]
  have hother : ∀ k, 1 ≤ k → k ≤ 6 → ∃ op, fetch (countdown_trace k) = some op ∧
      ¬ is_FX15 op ∧ ¬ call_hits_timer op (countdown_trace k) := by
    intro k h1 h6
    refine ⟨0, ?_, by decide, fun h => absurd h.1 (by decide)⟩
    interval_cases k <;> rfl
  have h2 := (delay_timer_countdown.1 0 (countdown_trace 1) (countdown_trace 2) 0
    rfl (by decide) (fun h => absurd h.1 (by decide)) (by decide) c1).1 (by decide)
  have h67 := delay_timer_countdown.2 countdown_trace 0 (by decide) rfl rfl hrun hother
  have hcyc : cycles_raw (List.replicate 6 0) (countdown_trace 0) =
      some (countdown_trace 6) := by
    simp only [List.replicate, cycles_raw, c0, c1, c2, c3, c4, c5, Option.some_bind]
  exact ⟨⟨countdown_trace 1, countdown_trace 2, c0, c1, rfl, h2⟩,
    ⟨countdown_trace 6, countdown_trace 7, hcyc, c6, h67.1, h67.2⟩⟩

/-- C9 (counterexample): the program 60FF F015 2204 sets the timer to 255 and then calls its
own third instruction for ever. After 18 cycles, all of whose accesses are in range, the stack
pointer is 16, the timer is 238 and the word at PC is 2204, which is not FX15. The next cycle
stores PC = 0x0204 to `stack[16]`, that is low byte 0x04 to `delay_timer` and high byte 0x02 to
`sound_timer`; after the decrement at the end of the cycle the timer is 3, not 237. Hence not
every cycle on an instruction other than FX15 leaves the timer at d - 1. -/
theorem delay_timer_overwritten_by_call :
    (run_rom [0x60, 0xFF, 0xF0, 0x15, 0x22, 0x04] (List.replicate 18 0)).map
        (fun s => (fetch s, s.sp, s.delay_timer)) = some (some 0x2204, 16, 238) ∧
    ((run_rom [0x60, 0xFF, 0xF0, 0x15, 0x22, 0x04] (List.replicate 18 0)).bind
        (single_cycle_raw 0)).map (fun s => (s.sp, s.delay_timer, s.sound_timer)) =
      some (17, 3, 2) ∧
    ¬ (∀ (r : Nat) (s s' : Chip8) (op : Nat), fetch s = some op → ¬ is_FX15 op →
        s.delay_timer < 256 → single_cycle_raw r s = some s' →
        (0 < s.delay_timer → s'.delay_timer = s.delay_timer - 1) ∧
        (s.delay_timer = 0 → s'.delay_timer = 0)) := by
  have hA : (run_rom [0x60, 0xFF, 0xF0, 0x15, 0x22, 0x04] (List.replicate 18 0)).map
      (fun s => (fetch s, s.sp, s.delay_timer)) = some (some 0x2204, 16, 238) := by decide
  have hB : ((run_rom [0x60, 0xFF, 0xF0, 0x15, 0x22, 0x04] (List.replicate 18 0)).bind
      (single_cycle_raw 0)).map (fun s => (s.sp, s.delay_timer, s.sound_timer)) =
        some (17, 3, 2) := by decide
  refine ⟨hA, hB, ?_⟩
  intro hall
  simp only [Option.map_eq_some', Prod.mk.injEq] at hA
  obtain ⟨s, hs, hf, _, hd⟩ := hA
  rw [hs] at hB
  simp only [Option.some_bind, Option.map_eq_some', Prod.mk.injEq] at hB
  obtain ⟨s', hs', _, hd', _⟩ := hB
  have := (hall 0 s s' 0x2204 hf (by decide) (by omega) hs').1 (by omega)
  omega

/-- C18 (stack pointer range, as amended): in every state reachable from a freshly constructed
machine by loading a program and executing cycles whose array accesses are all in range (each
cycle has a result, and its stack access, if any, is inside stack[0..15]: no return 00EE with
stack pointer 0, no call 2NNN with stack pointer 16), with key and draw-flag calls in between,
the stack pointer lies in 0..16. -/
theorem stack_pointer_range (s : Chip8) (h : ReachRaw stack_in_range s) : s.sp ≤ 16 := by
  induction h with
  | load rom s hload =>
    rw [(load_rom_members rom s hload).2.2.2.1]
    decide
  | cycle r s s' _ hG hstep ih =>
    exact single_cycle_sp r s s' ih (single_cycle_of_raw r s s' hG hstep)
  | key index val s s' _ hkey ih =>
    unfold set_keypad_value at hkey
    split at hkey
    · cases hkey; exact ih
    · cases hkey
  | flag b s _ ih => exact ih

/-- Witness for C18 (amended): the program 2200 (call 0x200) calls itself; its first 16 cycles
store to stack[0..15], and after them the stack pointer is 16, the top of the range. -/
theorem stack_pointer_range_witness :
    ∃ s, run_rom_raw [0x22, 0x00] (List.replicate 16 0) = some s ∧ s.sp ≤ 16 ∧ s.sp = 16 := by
  have hsp : (run_rom [0x22, 0x00] (List.replicate 16 0)).map (fun s => s.sp) = some 16 := by
    decide
  simp only [Option.map_eq_some'] at hsp
  obtain ⟨s, hs, h⟩ := hsp
  exact ⟨s, run_rom_raw_of_run_rom _ _ s hs,
    stack_pointer_range s (reach_raw_of_reachable s (run_rom_reachable _ _ s hs)), h⟩

/-- C18 (counterexample): after loading the two-byte program 00EE the first cycle is a return
on the empty stack: `sp--` takes the 8-bit stack pointer from 0 to 255, and the cycle ends with
stack pointer 255 and PC = stack[255] + 2 = 2. Likewise the program 2200 has stack pointer 16
after 16 cycles; its 17th call stores to `stack[16]` and leaves the stack pointer at 17. Hence
not every state reached by loading a program and executing cycles has its stack pointer in
0..16. -/
theorem stack_pointer_leaves_range :
    (run_rom_raw [0x00, 0xEE] [0]).map (fun s => (s.sp, s.pc)) = some (255, 2) ∧
    (run_rom_raw [0x22, 0x00] (List.replicate 17 0)).map (fun s => s.sp) = some 17 ∧
    ¬ (∀ s, ReachRaw (fun _ => True) s → s.sp ≤ 16) := by
  have hA : (run_rom_raw [0x00, 0xEE] [0]).map (fun s => (s.sp, s.pc)) = some (255, 2) := by
    decide
  refine ⟨hA, by decide, ?_⟩
  intro hall
  simp only [Option.map_eq_some', Prod.mk.injEq] at hA
  obtain ⟨s, hs, hsp, _⟩ := hA
  have := hall s (run_rom_raw_reach _ _ s hs)
  omega

end Chip8
